import Mathlib

/-!
Shallow embedding of the writepad markdown engine, translated from
`src/writepad-app/src/lib/editor/parser.ts` (inline and block parser),
`src/writepad-app/src/lib/editor/shared.ts` (`StateNode`, `serializeState`,
`getNewState`) and `src/writepad-app/src/lib/editor/rich-styling-plugin.ts`
(`RichStylingPlugin.process`).

Strings are modelled as `List Char`; a JS string index `i` corresponds to a
list position.  The JS scan loops that advance an index into a fixed string
are translated into structural recursion on the remaining suffix (all array
accesses in the source are at or after the current index, so dropping the
consumed prefix is equivalent).  JS `\s` is modelled by `isWS` (the ECMA
whitespace set), regexes by explicit matchers, derived below from each
regex literal in the source.  Potentially non-terminating loops take a fuel
argument and return `Option`; termination is then a theorem (the fuel bound
suffices), and the plain functions instantiate the fuel with that bound.
-/

abbrev Str := List Char

/-- Coerce a Lean string literal to the character-list model. -/
def str (s : String) : Str := s.toList

/-- The backtick character (written via a string literal). -/
def BACKTICK : Char := "`".toList.headD ' '

/-- ECMA `\s` character class, used by the source regex `WHITESPACE = /\s/`
and by `String.prototype.trim`. -/
def isWS (c : Char) : Bool :=
  c = ' ' || c = '\t' || c = '\n' || c = '\r' || c = '\x0b' || c = '\x0c' ||
  c = '\u00A0' || c = '\u1680' || ('\u2000' ≤ c && c ≤ '\u200A') ||
  c = '\u2028' || c = '\u2029' || c = '\u202F' || c = '\u205F' ||
  c = '\u3000' || c = '\uFEFF'

/-- ECMA line terminators (which `.` in a regex does not match). -/
def isLineTerm (c : Char) : Bool :=
  c = '\n' || c = '\r' || c = '\u2028' || c = '\u2029'

/-- JS `s.split('\n')`. -/
def splitNL : Str → List Str
  | [] => [[]]
  | c :: rest =>
    if c = '\n' then [] :: splitNL rest
    else
      match splitNL rest with
      | [] => [[c]]
      | l :: ls => (c :: l) :: ls

/-- JS `lines.join('\n')`. -/
def joinNL : List Str → Str
  | [] => []
  | [l] => l
  | l :: l2 :: rest => l ++ '\n' :: joinNL (l2 :: rest)

/-- JS `s.slice(a, b)` (for `0 ≤ a`, `0 ≤ b`; an empty string results when
`b ≤ a`, as in JS). -/
def jsSlice (s : Str) (a b : Nat) : Str := (s.take b).drop a

/-- The `StateNode` interface of `shared.ts`:
`{ type: string; content: (StateNode | string)[]; length?: number }`.
A plain string member of a `content` array is a `text` node. -/
inductive SNode where
  | text : Str → SNode
  | node : String → List SNode → Option Nat → SNode
  deriving Repr

/-- Tag field of a `StateNode` (a bare string entry has no tag). -/
def SNode.typeOf : SNode → String
  | .text _ => ""
  | .node ty _ _ => ty

/-- Content field of a `StateNode`. -/
def SNode.contentOf : SNode → List SNode
  | .text _ => []
  | .node _ c _ => c

/-- JS `block.length || 1` (an absent or zero length counts as 1). -/
def jsLen : SNode → Nat
  | .node _ _ (some (k+1)) => k + 1
  | _ => 1

mutual

def SNode.beq : SNode → SNode → Bool
  | .text s, .text t => s == t
  | .node ty c l, .node ty2 c2 l2 => ty == ty2 && SNode.beqList c c2 && l == l2
  | _, _ => false

def SNode.beqList : List SNode → List SNode → Bool
  | [], [] => true
  | a :: as, b :: bs => SNode.beq a b && SNode.beqList as bs
  | _, _ => false

end

mutual

theorem SNode.beq_iff : ∀ a b : SNode, SNode.beq a b = true ↔ a = b
  | .text s, .text t => by simp [SNode.beq]
  | .text _, .node _ _ _ => by simp [SNode.beq]
  | .node _ _ _, .text _ => by simp [SNode.beq]
  | .node ty c l, .node ty2 c2 l2 => by
      simp [SNode.beq, SNode.beqList_iff c c2, and_assoc]

theorem SNode.beqList_iff : ∀ a b : List SNode, SNode.beqList a b = true ↔ a = b
  | [], [] => by simp [SNode.beqList]
  | [], _ :: _ => by simp [SNode.beqList]
  | _ :: _, [] => by simp [SNode.beqList]
  | a :: as, b :: bs => by
      simp [SNode.beqList, SNode.beq_iff a b, SNode.beqList_iff as bs]

end

instance : DecidableEq SNode := fun a b =>
  decidable_of_iff (SNode.beq a b = true) (SNode.beq_iff a b)

mutual

/-- The function `serializeState(list, block = false)` of `shared.ts`:
`list.map(item => typeof item === 'string' ? item : serializeState(item.content, block)).join(block ? '\n' : '')`.
Note that the source passes `block` down into the recursive call. -/
def serializeState : List SNode → Bool → Str
  | [], _ => []
  | [i], b => serializeItem i b
  | i :: j :: rest, b =>
      serializeItem i b ++ (if b then ['\n'] else []) ++ serializeState (j :: rest) b

/-- Serialization of one entry of a `content` array (the body of the `map`
in `serializeState`). -/
def serializeItem : SNode → Bool → Str
  | .text s, _ => s
  | .node _ c _, b => serializeState c b

end

/-! ## Inline parser (`parser.ts`)

Each `try…` step examines the current suffix `s` of the line and either
produces `(token, consumedLength)` or declines.  The result type
`Option (Option (SNode × Nat))` distinguishes fuel exhaustion of a nested
`state.parse` call (outer `none`) from "this rule does not match here"
(`some none`). -/

/-- The for-loop of `findCloseIndex(state, match)`: the nearest `n` at or
after `index + match.length` (here relative: `match.length`) where the
string contains `match` and the character before `n` is not whitespace. -/
def findCloseIndex (s : Str) (m : Str) : Option Nat :=
  (List.range' m.length (s.length - m.length)).find? (fun n =>
    (jsSlice s n (n + m.length) == m) &&
    !(match s[n - 1]? with | some c => isWS c | none => false))

/-- The for-loop of `findCloseIndexSimple(state, start, match)`. -/
def findCloseIndexSimple (s : Str) (start : Nat) (c : Char) : Option Nat :=
  (List.range' start (s.length - start)).find? (fun n => s[n]? == some c)

/-- The function `matchChars(CHARS, state, index)`: the first `(open, close)`
pair whose `open` occurs at the current position. -/
def matchChars (CHARS : List (Str × Str)) (s : Str) : Option (Str × Str) :=
  CHARS.find? (fun p => s.take p.1.length == p.1)

/-- The factory `create(CHARS, type, richContent, contentRequired)` of
`parser.ts`, applied at the current suffix `s`.  `pf` is the recursive
`state.parse` (nested inline parse of a slice); its fuel failure propagates
as an outer `none`. -/
def create (pf : Str → Option (List SNode)) (CHARS : List (Str × Str))
    (ty : String) (richContent contentRequired : Bool) (s : Str) :
    Option (Option (SNode × Nat)) :=
  match matchChars CHARS s with
  | none => some none
  | some (op, cl) =>
    match s[op.length]? with
    | none => some none
    | some nextChar =>
      if isWS nextChar then some none
      else
        match findCloseIndex s cl with
        | none => some none
        | some closeIndex =>
          if contentRequired = true ∧ closeIndex = op.length then some none
          else
            if richContent then
              match pf (jsSlice s op.length closeIndex) with
              | none => none
              | some content =>
                some (some (.node ty (.text op :: (content ++ [.text cl])) none,
                  closeIndex + cl.length))
            else
              some (some (.node ty [.text op, .text (jsSlice s op.length closeIndex),
                .text cl] none, closeIndex + cl.length))

/-- The function `tryLink(state)` of `parser.ts`, at the current suffix. -/
def tryLink (s : Str) : Option (SNode × Nat) :=
  if s.head? = some '[' then
    match findCloseIndexSimple s 0 ']' with
    | none => none
    | some closeBracketIndex =>
      if closeBracketIndex = 1 then none
      else
        let txt := jsSlice s 1 closeBracketIndex
        if txt.contains '[' then none
        else if s[closeBracketIndex + 1]? = some '(' then
          match findCloseIndexSimple s 0 ')' with
          | none => none
          | some closeParIndex =>
            let url := jsSlice s (closeBracketIndex + 2) closeParIndex
            if url.contains '(' then none
            else if (closeBracketIndex : Int) = (closeParIndex : Int) - 2 then none
            else
              some (.node "link" [.text ['['], .text txt, .text [']'],
                .text ['('], .text url, .text [')']] none, closeParIndex + 1)
        else none
  else none

def STRONG_CHARS : List (Str × Str) := [(str "**", str "**"), (str "__", str "__")]
def EM_CHARS : List (Str × Str) := [(str "*", str "*"), (str "_", str "_")]
def STRIKE_CHARS : List (Str × Str) := [(str "~~", str "~~")]
def UNDERLINE_CHARS : List (Str × Str) := [(str "~", str "~")]
def MARK_CHARS : List (Str × Str) := [(str "::", str "::")]
def REFERENCE_CHARS : List (Str × Str) := [(str "[[", str "]]")]
def CODE_CHARS : List (Str × Str) := [([BACKTICK], [BACKTICK])]
def FILE_CHARS : List (Str × Str) := [(str "[file:", str "]")]
def IMAGE_CHARS : List (Str × Str) := [(str "[image:", str "]")]
def TAG_CHARS : List (Str × Str) := [(str "#", str "#")]

/-- The `addText` accumulation: a fall-through character joins the string
token it precedes when that token is a plain string (JS appends to the last
pushed token; head-recursion prepends to the first token of the rest). -/
def consChar (c : Char) : List SNode → List SNode
  | .text s :: rest => .text (c :: s) :: rest
  | toks => .text [c] :: toks

/-- One pass of the if/else chain in the `parseInline` while-loop; steps are
tried in source order. -/
def inlineChain (steps : List (Str → Option (Option (SNode × Nat)))) (s : Str) :
    Option (Option (SNode × Nat)) :=
  match steps with
  | [] => some none
  | f :: rest =>
    match f s with
    | none => none
    | some (some r) => some (some r)
    | some none => inlineChain rest s

/-- The list of `try…` parsers in the order of the `parseInline` loop. -/
def inlineSteps (pf : Str → Option (List SNode)) :
    List (Str → Option (Option (SNode × Nat))) :=
  [fun s => some (tryLink s),
   create pf STRONG_CHARS "strong" true false,
   create pf EM_CHARS "em" true false,
   create pf STRIKE_CHARS "strikethrough" true false,
   create pf UNDERLINE_CHARS "underline" true false,
   create pf MARK_CHARS "mark" true false,
   create pf REFERENCE_CHARS "reference" true false,
   create pf CODE_CHARS "code" false false,
   create pf FILE_CHARS "file" false false,
   create pf IMAGE_CHARS "image" false false,
   create pf TAG_CHARS "tag" false true]

/-- Fueled `parseInline(text)` of `parser.ts`.  The while-loop advances
`state.index`; here the consumed prefix is dropped instead.  `none` means
the fuel ran out (the termination theorem shows `text.length + 1` always
suffices). -/
def parseInlineGo : Nat → Str → Option (List SNode)
  | 0, _ => none
  | fuel + 1, s =>
    match s with
    | [] => some []
    | c :: rest =>
      match inlineChain (inlineSteps (parseInlineGo fuel)) (c :: rest) with
      | none => none
      | some (some (tok, k)) =>
        (parseInlineGo fuel ((c :: rest).drop k)).map (tok :: ·)
      | some none =>
        (parseInlineGo fuel rest).map (consChar c)

/-- Total `parseInline`, with the sufficient fuel `text.length + 1`. -/
def parseInline (s : Str) : List SNode :=
  (parseInlineGo (s.length + 1) s).getD []

/-! ## Block parser (`parser.ts`)

Each regex literal of the source is modelled by an explicit matcher that
returns the capture groups (`match.slice(1)`), derived from the regex with
its backtracking behaviour taken into account (all of them are anchored and
deterministic). -/

/-- Regex `HEADING = /^(#{1,6}) /`: one to six leading `#` followed by a
space; the capture is the run of `#`. -/
def HEADING_match (l : Str) : Option (List Str) :=
  let hashes := l.takeWhile (· == '#')
  if 1 ≤ hashes.length ∧ hashes.length ≤ 6 ∧ l[hashes.length]? = some ' '
  then some [hashes] else none

/-- Regex `HR = /^(-{3,}|\*{3,}|_{3,})$/`: the whole line is three or more
of the same character among `-`, `*`, `_`. -/
def HR_match (l : Str) : Option (List Str) :=
  if 3 ≤ l.length ∧ (l.all (· == '-') ∨ l.all (· == '*') ∨ l.all (· == '_'))
  then some [l] else none

/-- Regex `TODO_ITEM = /^(\s*)(- \[(?: |x)\])( )/`: captures are the leading
whitespace, the `- [ ]` / `- [x]` marker, and the single following space. -/
def TODO_ITEM_match (l : Str) : Option (List Str) :=
  let w := l.takeWhile isWS
  match l.drop w.length with
  | c1 :: c2 :: c3 :: c :: c5 :: c6 :: _ =>
    if c1 = '-' ∧ c2 = ' ' ∧ c3 = '[' ∧ (c = ' ' ∨ c = 'x') ∧ c5 = ']' ∧ c6 = ' '
    then some [w, ['-', ' ', '[', c, ']'], [' ']] else none
  | _ => none

/-- Regex `ORDERED_ITEM = /^(\s*)(\d+)(\.) /`. -/
def ORDERED_ITEM_match (l : Str) : Option (List Str) :=
  let w := l.takeWhile isWS
  let r := l.drop w.length
  let ds := r.takeWhile Char.isDigit
  if ds ≠ [] ∧ r[ds.length]? = some '.' ∧ r[ds.length + 1]? = some ' '
  then some [w, ds, ['.']] else none

/-- Regex `UNORDERED_ITEM = /^(\s*)([*-]) /`. -/
def UNORDERED_ITEM_match (l : Str) : Option (List Str) :=
  let w := l.takeWhile isWS
  match l.drop w.length with
  | c :: c2 :: _ => if (c = '*' ∨ c = '-') ∧ c2 = ' ' then some [w, [c]] else none
  | _ => none

/-- Regex `BLOCKQUOTE = /^(>) /`. -/
def BLOCKQUOTE_match (l : Str) : Option (List Str) :=
  match l with
  | c1 :: c2 :: _ => if c1 = '>' ∧ c2 = ' ' then some [['>']] else none
  | _ => none

/-- Total length of the capture strings, `matches.join('').length`. -/
def capsLen (caps : List Str) : Nat := (caps.map List.length).sum

/-- The body of `matchLine(regex, type)`: on a match, the block's content is
the captures followed by the inline parse of the rest of the line, with
`length: 1`. -/
def matchLine (regexMatch : Str → Option (List Str)) (ty : String)
    (pI : Str → List SNode) (l : Str) : Option SNode :=
  (regexMatch l).map (fun caps =>
    .node ty (caps.map SNode.text ++ pI (l.drop (capsLen caps))) (some 1))

/-- Regex `OPEN = /^(`{3})(.*)$/` for a fence opening line: captures the
three backticks and the rest of the line (which `.*` requires to be free of
line terminators). -/
def OPEN_match (l : Str) : Option (Str × Str) :=
  if l.take 3 == [BACKTICK, BACKTICK, BACKTICK] ∧
     (l.drop 3).all (fun c => !(isLineTerm c))
  then some ([BACKTICK, BACKTICK, BACKTICK], l.drop 3) else none

/-- Regex test `CLOSE = /^`{3,}.*$/` for a fence closing line. -/
def CLOSE_test (l : Str) : Bool :=
  3 ≤ (l.takeWhile (· == BACKTICK)).length &&
  (l.dropWhile (· == BACKTICK)).all (fun c => !(isLineTerm c))

/-- The for-loop of `findClosingLine({lines, index})`, searching from
`index + 1`; here `rest` is the list of lines after the opening line and
the result is relative to `rest`. -/
def findClosingLine (rest : List Str) : Option Nat :=
  rest.findIdx? (fun l => CLOSE_test l)

/-- The function `codeBlock({lines, index})`: `lines` is the suffix of the
document starting at the current line. -/
def codeBlock (lines : List Str) : Option SNode :=
  match lines with
  | [] => none
  | l :: rest =>
    match OPEN_match l with
    | none => none
    | some (fence, lang) =>
      match findClosingLine rest with
      | none => none
      | some i =>
        let inner : List SNode :=
          if i = 0 then [.text []]
          else [.text (joinNL (rest.take i)), .text ['\n']]
        some (.node "code_block"
          ([.text fence, .text lang, .text ['\n']] ++ inner ++
            [.text ((rest[i]?).getD [])])
          (some (i + 2)))

/-- The function `paragraph({parseInline, lines, index})`: any line whose
`trim()` is non-empty. -/
def paragraph (pI : Str → List SNode) (l : Str) : Option SNode :=
  if l.any (fun c => !(isWS c)) then some (.node "paragraph" (pI l) (some 1))
  else none

/-- The `parsers` array of `parser.ts` applied in order at the current
suffix of the document; `typeOnly` replaces `parseInline` by
`(string) => [string]` as in `parseBlock`. -/
def tryParsers (typeOnly : Bool) (lines : List Str) : Option SNode :=
  match lines with
  | [] => none
  | l :: _ =>
    let pI : Str → List SNode :=
      if typeOnly then (fun t => [.text t]) else parseInline
    (codeBlock lines) <|>
    (matchLine HEADING_match "heading" pI l) <|>
    (matchLine HR_match "horizontal_rule" pI l) <|>
    (matchLine TODO_ITEM_match "todo_item" pI l) <|>
    (matchLine ORDERED_ITEM_match "ordered_list_item" pI l) <|>
    (matchLine UNORDERED_ITEM_match "unordered_list_item" pI l) <|>
    (matchLine BLOCKQUOTE_match "blockquote" pI l) <|>
    (paragraph pI l)

/-- The fallback block of the `parseBlock` loop: an empty paragraph with
content `['']` for a line no parser matched. -/
def placeholderPara : SNode := .node "paragraph" [.text []] (some 1)

/-- Fueled while-loop of `parseBlock(value, typeOnly)`: `index` advances by
`result.length || 1`; here the consumed lines are dropped. -/
def parseBlockGo : Nat → Bool → List Str → Option (List SNode)
  | 0, _, _ => none
  | fuel + 1, typeOnly, lines =>
    match lines with
    | [] => some []
    | _ :: _ =>
      match tryParsers typeOnly lines with
      | some b => (parseBlockGo fuel typeOnly (lines.drop (jsLen b))).map (b :: ·)
      | none => (parseBlockGo fuel typeOnly (lines.drop 1)).map (placeholderPara :: ·)

/-- Total `parseBlock` on a line array, with the sufficient fuel
`lines.length + 1`. -/
def parseBlockLines (typeOnly : Bool) (lines : List Str) : List SNode :=
  (parseBlockGo (lines.length + 1) typeOnly lines).getD []

/-- The generator `parseBlock(value)` of `parser.ts` on a string document
(split on newlines, `typeOnly = false`), collected into a list. -/
def parseBlock (value : Str) : List SNode :=
  parseBlockLines false (splitNL value)

/-! ## State reconciler (`shared.ts`, `getNewState`) -/

/-- Per-block line reconstruction of `getNewState`:
`serializeState(block.content).split('\n')`. -/
def blockLines (b : SNode) : List Str := splitNL (serializeState b.contentOf false)

/-- Line lists of a run of blocks, flattened (the `.map(...).flat()` of
`getNewState`). -/
def linesOf (bs : List SNode) : List Str := (bs.map blockLines).flatten

/-- Sum of `block.length || 1` over a block sequence (the `reduce` in
`getNewState`). -/
def sumSpans (bs : List SNode) : Nat := (bs.map jsLen).sum

/-- The `editor.state.find(...)` scan of `getNewState`: the block whose
starting line offset (running sum of `length || 1`) equals the key.  The JS
running sum only grows, so a key that is ever passed (or negative) never
matches. -/
def findBlockAt : List SNode → Int → Option SNode
  | [], _ => none
  | b :: rest, k => if k = 0 then some b else findBlockAt rest (k - jsLen b)

/-- The inner for-loop of the reparse branch of `getNewState`: push parsed
blocks, accumulating `m += newBlock.length || 1`, until `m >= target` (or
the parser is exhausted); returns the pushed blocks and the final `m`. -/
def takeBlocks : List SNode → Nat → List SNode × Nat
  | [], _ => ([], 0)
  | b :: rest, target =>
    if target ≤ jsLen b then ([b], jsLen b)
    else
      let r := takeBlocks rest (target - jsLen b)
      (b :: r.1, jsLen b + r.2)

/-- The while-loop of `getNewState`.  `pre` is the remaining output of the
current `preparser` generator (type-only parse of `newLines` from
`lineIndex`); `oldLineIndex` is an `Int` because the JS value
`m - lines.length` can be negative.  The loop runs while the preparser
yields a block; the fuel argument only bounds the iteration count. -/
def gnsGo (state : List SNode) (newLines : List Str) (tbLen lrLen fromI toI : Nat) :
    Nat → List SNode → Nat → Int → List SNode → List SNode
  | 0, _, _, _, acc => acc
  | _ + 1, [], _, _, acc => acc
  | fuel + 1, block :: preRest, lineIndex, oldLineIndex, acc =>
    if tbLen < lineIndex + jsLen block ∧ lineIndex < tbLen + lrLen then
      let tm := takeBlocks (parseBlockLines false (newLines.drop lineIndex)) lrLen
      let lineIndex2 := lineIndex + tm.2
      let oldLineIndex2 := oldLineIndex + ((tm.2 : Int) - (lrLen : Int)) +
        (sumSpans ((state.take (toI + 1)).drop fromI) : Int)
      gnsGo state newLines tbLen lrLen fromI toI fuel
        (parseBlockLines true (newLines.drop lineIndex2)) lineIndex2 oldLineIndex2
        (acc ++ tm.1)
    else
      match findBlockAt state oldLineIndex with
      | some oldBlock =>
        if oldBlock.typeOf = block.typeOf then
          gnsGo state newLines tbLen lrLen fromI toI fuel preRest
            (lineIndex + jsLen block) (oldLineIndex + (jsLen block : Int))
            (acc ++ [oldBlock])
        else
          match parseBlockLines false (newLines.drop lineIndex) with
          | [] => acc
          | nb :: _ =>
            gnsGo state newLines tbLen lrLen fromI toI fuel
              (parseBlockLines true (newLines.drop (lineIndex + jsLen nb)))
              (lineIndex + jsLen nb) (oldLineIndex + (jsLen nb : Int)) (acc ++ [nb])
      | none =>
        match parseBlockLines false (newLines.drop lineIndex) with
        | [] => acc
        | nb :: _ =>
          gnsGo state newLines tbLen lrLen fromI toI fuel
            (parseBlockLines true (newLines.drop (lineIndex + jsLen nb)))
            (lineIndex + jsLen nb) (oldLineIndex + (jsLen nb : Int)) (acc ++ [nb])

/-- The function `getNewState(editor, from, to, text)` of `shared.ts`:
replace blocks `from..to` (inclusive) of the previous state with the parse
of `text`, reusing unchanged old block objects. -/
def getNewState (state : List SNode) (fromI toI : Nat) (text : Str) : List SNode :=
  let textBefore := linesOf (state.take fromI)
  let textAfter := linesOf (state.drop (toI + 1))
  let lines := splitNL text
  let newLines := textBefore ++ lines ++ textAfter
  gnsGo state newLines textBefore.length lines.length fromI toI
    (newLines.length + 1) (parseBlockLines true newLines) 0 0 []

/-- Modelled from the spec (§6 `serialize(blocks) -> string`): the document
serialization that joins the per-block serializations with newlines, where
each block serializes through `serializeState(block.content)` exactly as the
reconciler itself reads block lines back (`shared.ts` line 233).  This is
the second definition of document serialization, used to compare the spec's
round-trip contract against `serializeState(·, true)`. -/
def serializeDocSpec (blocks : List SNode) : Str :=
  joinNL (blocks.map (fun b => serializeState b.contentOf false))

/-! ## Decoration planner (`rich-styling-plugin.ts`)

The CodeMirror syntax tree is modelled as a finitely-branching tree of
named, ranged nodes; `syntaxTree(state).iterate({enter})` is the pre-order
traversal in which `enter` returning `false` skips the node's children.
`view.visibleRanges` is abstracted as the whole tree, and `Decoration.set`
keeps the emitted ranges as a list.  A decoration is `(cssClass, from, to)`. -/

inductive SynNode where
  | mk (name : String) (nfrom nto : Nat) (children : List SynNode)

def SynNode.name : SynNode → String
  | .mk n _ _ _ => n

def SynNode.nfrom : SynNode → Nat
  | .mk _ f _ _ => f

def SynNode.nto : SynNode → Nat
  | .mk _ _ t _ => t

def SynNode.children : SynNode → List SynNode
  | .mk _ _ _ c => c

/-- The `richElements` array of `rich-styling-plugin.ts`. -/
def richElements : List String :=
  ["InlineCode", "Emphasis", "StrongEmphasis", "FencedCode", "Link",
   "ATXHeading1", "ATXHeading2", "ATXHeading3", "ATXHeading4", "ATXHeading5",
   "ATXHeading6", "Strikethrough", "HorizontalRule", "Blockquote"]

/-- The planner's focus test, the `cursorInNode` expression of `process`:
`cursor.from >= node.from && cursor.to <= node.to`. -/
def cursorInNode (cursor : Nat × Nat) (nfrom nto : Nat) : Bool :=
  decide (nfrom ≤ cursor.1) && decide (cursor.2 ≤ nto)

/-- CodeMirror's `node.matchContext(['BulletList', 'ListItem'])`: the node's
direct parent is a `ListItem` whose parent is a `BulletList`.  `anc` is the
ancestor name list, outermost first. -/
def matchContextBulletItem (anc : List String) : Bool :=
  match anc.reverse with
  | li :: bl :: _ => li == "ListItem" && bl == "BulletList"
  | _ => false

/-- The `switch (node.name)` of `RichStylingPlugin.process`: the decorations
pushed on entering one node. -/
def enterDecos (wys : Bool) (cursor : Nat × Nat) (anc : List String)
    (name : String) (f t : Nat) : List (String × Nat × Nat) :=
  let cIn := cursorInNode cursor f t
  let shouldHide := wys || !cIn
  if name = "FencedCode" then [("wp-code-block", f, t)]
  else if name = "ATXHeading1" ∨ name = "ATXHeading2" ∨ name = "ATXHeading3" ∨
          name = "ATXHeading4" ∨ name = "ATXHeading5" ∨ name = "ATXHeading6" then
    if shouldHide then [("wp-heading", f, t)] else []
  else if name = "Emphasis" then
    if shouldHide then [("wp-emphasis", f, t)] else []
  else if name = "StrongEmphasis" then
    if shouldHide then [("wp-strong", f, t)] else []
  else if name = "InlineCode" then
    if shouldHide then [("wp-inline-code", f, t)] else []
  else if name = "Link" ∨ name = "Autolink" then
    if shouldHide then [("wp-link", f, t)] else []
  else if name = "Strikethrough" then
    if shouldHide then [("wp-strikethrough", f, t)] else []
  else if name = "Blockquote" then
    if shouldHide then [("wp-blockquote", f, t)] else []
  else if name = "HorizontalRule" then [("wp-horizontal-rule", f, t)]
  else if name = "ListMark" then
    if matchContextBulletItem anc &&
       (wys || (decide (cursor.1 ≠ f) && decide (cursor.1 ≠ f + 1))) then
      [("wp-list-bullet", f, t)]
    else []
  else if name = "HeaderMark" then
    if shouldHide then [("wp-markup-hidden", f, t)] else []
  else if name = "EmphasisMark" ∨ name = "CodeMark" ∨ name = "LinkMark" ∨
          name = "QuoteMark" ∨ name = "TaskMarker" ∨ name = "TableDelimiter" then
    if shouldHide then [("wp-markup-hidden", f, t)] else []
  else if name = "URL" then
    if shouldHide then [("wp-markup-hidden", f, t)] else []
  else []

mutual

/-- The traversal of `RichStylingPlugin.process` entering one node: push the
node's decorations, then descend into its children unless the node is a
rich element containing the cursor outside WYSIWYG mode (the
`return false`). -/
def processNode (wys : Bool) (cursor : Nat × Nat) (anc : List String) :
    SynNode → List (String × Nat × Nat)
  | .mk name f t ch =>
    enterDecos wys cursor anc name f t ++
    (if richElements.contains name && cursorInNode cursor f t && !wys then []
     else processList wys cursor (anc ++ [name]) ch)

/-- Traversal over a list of sibling nodes in order. -/
def processList (wys : Bool) (cursor : Nat × Nat) (anc : List String) :
    List SynNode → List (String × Nat × Nat)
  | [] => []
  | n :: rest => processNode wys cursor anc n ++ processList wys cursor anc rest

end

/-! ## Derived predicates used in the statements -/

/-- Serialization of one block's own content (no newline joining), as both
`getNewState` and the save path use per block. -/
def lineOfBlock (b : SNode) : Str := serializeState b.contentOf false

/-- Whether a line matches the fence-opening regex `OPEN` (the only block
rule whose applicability depends on the following lines). -/
def fenceOpen (l : Str) : Bool := (OPEN_match l).isSome

/-- Classification of a single line by the `parseBlock` loop body: the first
matching parser, or the empty-paragraph fallback. -/
def classify (typeOnly : Bool) (l : Str) : SNode :=
  match tryParsers typeOnly [l] with
  | some b => b
  | none => placeholderPara

/-- Stability conditions under which the reconciler can line up an old block
with the type-only reparse of its own serialization: the block spans one
line, its serialization is a single line that does not open a code fence,
and type-only reclassification of that line reproduces the block's type. -/
def goodBlock (b : SNode) : Prop :=
  jsLen b = 1 ∧ '\n' ∉ lineOfBlock b ∧ fenceOpen (lineOfBlock b) = false ∧
  (classify true (lineOfBlock b)).typeOf = b.typeOf

instance (b : SNode) : Decidable (goodBlock b) := by
  unfold goodBlock; infer_instance

/-- Stability conditions for a multi-line fenced code block: the block is a
`code_block` whose serialization splits into exactly `length` lines, at
least two of them, the first of which opens a fence while the first
closing-fence candidate among the following lines is the last line.  Such a
block reparses to a `code_block` of the same line span whatever lines
follow it, because `findClosingLine` stops at the block's own closing
line. -/
def codeStable (b : SNode) : Prop :=
  b.typeOf = "code_block" ∧
  (blockLines b).length = jsLen b ∧
  2 ≤ (blockLines b).length ∧
  fenceOpen ((blockLines b).headD []) = true ∧
  findClosingLine ((blockLines b).drop 1) = some ((blockLines b).length - 2)

instance (b : SNode) : Decidable (codeStable b) := by
  unfold codeStable; infer_instance

/-- Stability of one previous block under the reconciler's type-only
reparse: either a single-line block whose line re-classifies to its own
type (`goodBlock`), or a closed multi-line fenced code block
(`codeStable`). -/
def stableBlock (b : SNode) : Prop := goodBlock b ∨ codeStable b

instance (b : SNode) : Decidable (stableBlock b) := by
  unfold stableBlock; infer_instance

/-- The spec's notion of a valid closing occurrence of marker `m` in the
suffix `s` (position taken relative to the opening position): a later
occurrence of the same marker whose immediately preceding character is not
whitespace. -/
def validCloseAt (s m : Str) (n : Nat) : Prop :=
  m.length ≤ n ∧ jsSlice s n (n + m.length) = m ∧
  ∀ c, s[n - 1]? = some c → isWS c = false

instance (s m : Str) (n : Nat) : Decidable (validCloseAt s m n) := by
  unfold validCloseAt; infer_instance

/-! ## Helper lemmas: searching loops -/

theorem find?_range'_eq_some {p : Nat → Bool} :
    ∀ {len a n : Nat}, (List.range' a len).find? p = some n ↔
      (a ≤ n ∧ n < a + len ∧ p n = true ∧ ∀ k, a ≤ k → k < n → p k = false) := by
  intro len
  induction len with
  | zero => intro a n; simp; omega
  | succ len ih =>
    intro a n
    rw [List.range'_succ, List.find?_cons]
    cases hpa : p a with
    | true =>
      simp only []
      constructor
      · rintro h
        injection h with h; subst h
        exact ⟨le_refl _, by omega, hpa, fun k hk1 hk2 => absurd hk1 (by omega)⟩
      · rintro ⟨h1, h2, h3, h4⟩
        by_cases hna : n = a
        · subst hna; rfl
        · have := h4 a (le_refl _) (by omega)
          rw [hpa] at this; exact absurd this (by simp)
    | false =>
      simp only []
      rw [ih]
      constructor
      · rintro ⟨h1, h2, h3, h4⟩
        refine ⟨by omega, by omega, h3, fun k hk1 hk2 => ?_⟩
        by_cases hka : k = a
        · subst hka; exact hpa
        · exact h4 k (by omega) hk2
      · rintro ⟨h1, h2, h3, h4⟩
        have hna : n ≠ a := by
          intro hna; subst hna; rw [hpa] at h3; exact absurd h3 (by simp)
        exact ⟨by omega, by omega, h3, fun k hk1 hk2 => h4 k (by omega) hk2⟩

/-- The boolean closer test inside `findCloseIndex` agrees with
`validCloseAt` (given the position is at or after the marker length). -/
theorem findCloseIndex_pred_iff (s m : Str) (n : Nat) :
    ((jsSlice s n (n + m.length) == m) &&
      !(match s[n - 1]? with | some c => isWS c | none => false)) = true ↔
      (jsSlice s n (n + m.length) = m ∧
        ∀ c, s[n - 1]? = some c → isWS c = false) := by
  rw [Bool.and_eq_true, beq_iff_eq, Bool.not_eq_true']
  constructor
  · rintro ⟨h1, h2⟩
    refine ⟨h1, fun c hc => ?_⟩
    rw [hc] at h2; exact h2
  · rintro ⟨h1, h2⟩
    refine ⟨h1, ?_⟩
    cases hc : s[n - 1]? with
    | none => rfl
    | some c => exact h2 c hc

/-- A valid closer ends within the string. -/
theorem validCloseAt_le (s m : Str) (n : Nat) (hm : 1 ≤ m.length)
    (h : validCloseAt s m n) : n + m.length ≤ s.length := by
  obtain ⟨h1, h2, h3⟩ := h
  have hlen := congrArg List.length h2
  simp only [jsSlice, List.length_drop, List.length_take] at hlen
  omega

theorem findCloseIndex_eq_some_iff (s m : Str) (hm : 1 ≤ m.length) (n : Nat) :
    findCloseIndex s m = some n ↔
      validCloseAt s m n ∧ ∀ k, k < n → ¬ validCloseAt s m k := by
  unfold findCloseIndex
  rw [find?_range'_eq_some]
  constructor
  · rintro ⟨h1, _h2, h3, h4⟩
    rw [findCloseIndex_pred_iff] at h3
    refine ⟨⟨h1, h3.1, h3.2⟩, fun k hk hvk => ?_⟩
    have := h4 k hvk.1 hk
    rw [← Bool.not_eq_true, findCloseIndex_pred_iff] at this
    exact this ⟨hvk.2.1, hvk.2.2⟩
  · rintro ⟨⟨h1, h2, h3⟩, h4⟩
    have hle := validCloseAt_le s m n hm ⟨h1, h2, h3⟩
    refine ⟨h1, by omega, ?_, fun k hk1 hk2 => ?_⟩
    · rw [findCloseIndex_pred_iff]; exact ⟨h2, h3⟩
    · rw [← Bool.not_eq_true, findCloseIndex_pred_iff]
      intro hcon
      exact h4 k hk2 ⟨hk1, hcon.1, hcon.2⟩

theorem findCloseIndex_eq_none_iff (s m : Str) (hm : 1 ≤ m.length) :
    findCloseIndex s m = none ↔ ∀ n, ¬ validCloseAt s m n := by
  unfold findCloseIndex
  rw [List.find?_eq_none]
  constructor
  · intro h n hv
    have hle := validCloseAt_le s m n hm hv
    have hmem : n ∈ List.range' m.length (s.length - m.length) := by
      rw [List.mem_range'_1]
      exact ⟨hv.1, by omega⟩
    have := h n hmem
    rw [findCloseIndex_pred_iff] at this
    exact this ⟨hv.2.1, hv.2.2⟩
  · intro h n hmem
    rw [List.mem_range'_1] at hmem
    rw [findCloseIndex_pred_iff]
    intro hcon
    exact h n ⟨hmem.1, hcon.1, hcon.2⟩

theorem matchChars_mem {CH : List (Str × Str)} {s : Str} {p : Str × Str}
    (h : matchChars CH s = some p) : p ∈ CH :=
  List.mem_of_find?_eq_some h

theorem matchChars_take {CH : List (Str × Str)} {s op cl : Str}
    (h : matchChars CH s = some (op, cl)) : s.take op.length = op := by
  have := List.find?_some h
  simpa using this

theorem take_eq_imp_le {s op : Str} {k : Nat} (h : s.take k = op) :
    op.length ≤ s.length := by
  have := congrArg List.length h
  simp only [List.length_take] at this
  omega

/-! ## Helper lemmas: inversion and success of `create` -/

theorem create_eq_some {pf : Str → Option (List SNode)} {CH : List (Str × Str)}
    {ty : String} {rich creq : Bool} {s : Str} {tok : SNode} {k : Nat}
    (h : create pf CH ty rich creq s = some (some (tok, k))) :
    ∃ op cl closeIndex nextChar,
      matchChars CH s = some (op, cl) ∧
      s[op.length]? = some nextChar ∧ isWS nextChar = false ∧
      findCloseIndex s cl = some closeIndex ∧
      (creq = true → closeIndex ≠ op.length) ∧
      k = closeIndex + cl.length ∧
      ((rich = true ∧ ∃ content, pf (jsSlice s op.length closeIndex) = some content ∧
          tok = .node ty (.text op :: (content ++ [.text cl])) none) ∨
       (rich = false ∧
          tok = .node ty [.text op, .text (jsSlice s op.length closeIndex), .text cl] none)) := by
  unfold create at h
  split at h
  next => exact absurd h (by simp)
  next p op cl hmc =>
    split at h
    next => exact absurd h (by simp)
    next nextChar hnc =>
      split at h
      next hws => exact absurd h (by simp)
      next hws =>
        split at h
        next => exact absurd h (by simp)
        next closeIndex hfc =>
          split at h
          next hcr => exact absurd h (by simp)
          next hcr =>
            split at h
            next hrich =>
              split at h
              next hpf => exact absurd h (by simp)
              next content hpf =>
                simp only [Option.some.injEq, Prod.mk.injEq] at h
                exact ⟨op, cl, closeIndex, nextChar, hmc, hnc, by simpa using hws, hfc,
                  fun hcq hix => hcr ⟨hcq, hix⟩, h.2.symm,
                  Or.inl ⟨hrich, content, hpf, h.1.symm⟩⟩
            next hrich =>
              simp only [Option.some.injEq, Prod.mk.injEq] at h
              exact ⟨op, cl, closeIndex, nextChar, hmc, hnc, by simpa using hws, hfc,
                fun hcq hix => hcr ⟨hcq, hix⟩, h.2.symm,
                Or.inr ⟨by simpa using hrich, h.1.symm⟩⟩

theorem findCloseIndex_bounds {s m : Str} {n : Nat}
    (h : findCloseIndex s m = some n) : m.length ≤ n ∧ n + m.length ≤ s.length := by
  unfold findCloseIndex at h
  rw [find?_range'_eq_some] at h
  obtain ⟨h1, _h2, h3, _⟩ := h
  rw [findCloseIndex_pred_iff] at h3
  have hlen := congrArg List.length h3.1
  simp only [jsSlice, List.length_drop, List.length_take] at hlen
  exact ⟨h1, by omega⟩

theorem create_succeeds {pf : Str → Option (List SNode)} {CH : List (Str × Str)}
    {ty : String} {rich creq : Bool} {s op cl : Str} {nextChar : Char}
    {closeIndex : Nat}
    (hmc : matchChars CH s = some (op, cl))
    (hnc : s[op.length]? = some nextChar) (hws : isWS nextChar = false)
    (hfc : findCloseIndex s cl = some closeIndex)
    (hcr : ¬(creq = true ∧ closeIndex = op.length))
    (hpf : rich = true → ∃ content, pf (jsSlice s op.length closeIndex) = some content) :
    ∃ tok, create pf CH ty rich creq s = some (some (tok, closeIndex + cl.length)) := by
  cases rich with
  | true =>
    obtain ⟨content, hcontent⟩ := hpf rfl
    refine ⟨.node ty (.text op :: (content ++ [.text cl])) none, ?_⟩
    simp only [create, hmc, hnc, hws, Bool.false_eq_true, if_false, hfc,
      if_neg hcr, hcontent, if_true]
  | false =>
    refine ⟨.node ty [.text op, .text (jsSlice s op.length closeIndex), .text cl] none, ?_⟩
    simp only [create, hmc, hnc, hws, Bool.false_eq_true, if_false, if_neg hcr, hfc,
      if_true]

theorem findCloseIndexSimple_ge {s : Str} {start : Nat} {c : Char} {n : Nat}
    (h : findCloseIndexSimple s start c = some n) : start ≤ n := by
  unfold findCloseIndexSimple at h
  have := List.mem_of_find?_eq_some h
  rw [List.mem_range'_1] at this
  exact this.1

theorem tryLink_eq_some {s : Str} {tok : SNode} {k : Nat}
    (h : tryLink s = some (tok, k)) :
    ∃ closeParIndex, findCloseIndexSimple s 0 ')' = some closeParIndex ∧
      k = closeParIndex + 1 := by
  unfold tryLink at h
  simp only [] at h
  split at h
  · split at h
    next => exact absurd h (by simp)
    next closeBracketIndex hcb =>
      split at h
      next => exact absurd h (by simp)
      next =>
        split at h
        next => exact absurd h (by simp)
        next =>
          split at h
          · split at h
            next => exact absurd h (by simp)
            next closeParIndex hcp =>
              split at h
              next => exact absurd h (by simp)
              next =>
                split at h
                next => exact absurd h (by simp)
                next =>
                  simp only [Option.some.injEq, Prod.mk.injEq] at h
                  exact ⟨closeParIndex, hcp, h.2.symm⟩
          · exact absurd h (by simp)
  · exact absurd h (by simp)

theorem inlineChain_ne_none {steps : List (Str → Option (Option (SNode × Nat)))}
    {s : Str} (h : ∀ f ∈ steps, f s ≠ none) : inlineChain steps s ≠ none := by
  induction steps with
  | nil => simp [inlineChain]
  | cons f rest ih =>
    rw [inlineChain]
    cases hf : f s with
    | none => exact absurd hf (h f (List.mem_cons_self f rest))
    | some o =>
      cases o with
      | none => exact ih (fun g hg => h g (List.mem_cons_of_mem f hg))
      | some r => simp

theorem inlineChain_eq_someSome {steps : List (Str → Option (Option (SNode × Nat)))}
    {s : Str} {r : SNode × Nat} (h : inlineChain steps s = some (some r)) :
    ∃ f ∈ steps, f s = some (some r) := by
  induction steps with
  | nil => simp [inlineChain] at h
  | cons f rest ih =>
    rw [inlineChain] at h
    cases hf : f s with
    | none => rw [hf] at h; exact absurd h (by simp)
    | some o =>
      cases o with
      | none =>
        rw [hf] at h
        obtain ⟨g, hg, hgs⟩ := ih h
        exact ⟨g, List.mem_cons_of_mem f hg, hgs⟩
      | some r2 =>
        rw [hf] at h
        injection h with h
        exact ⟨f, List.mem_cons_self f rest, by rw [hf, h]⟩

theorem create_k_pos {pf : Str → Option (List SNode)} {CH : List (Str × Str)}
    {ty : String} {rich creq : Bool} {s : Str} {tok : SNode} {k : Nat}
    (hCH : ∀ p ∈ CH, 1 ≤ p.2.length)
    (h : create pf CH ty rich creq s = some (some (tok, k))) : 1 ≤ k := by
  obtain ⟨op, cl, closeIndex, nextChar, hmc, _, _, hfc, _, hk, _⟩ := create_eq_some h
  have hcl : 1 ≤ cl.length := by simpa using hCH _ (matchChars_mem hmc)
  omega

theorem create_ne_none {pf : Str → Option (List SNode)} {CH : List (Str × Str)}
    {ty : String} {rich creq : Bool} {s : Str}
    (hpf : ∀ t, t.length + 2 ≤ s.length → (pf t).isSome)
    (hCH : ∀ p ∈ CH, 1 ≤ p.1.length ∧ 1 ≤ p.2.length) :
    create pf CH ty rich creq s ≠ none := by
  intro h
  unfold create at h
  split at h
  next => exact absurd h (by simp)
  next p op cl hmc =>
    split at h
    next => exact absurd h (by simp)
    next nextChar hnc =>
      split at h
      next hws => exact absurd h (by simp)
      next hws =>
        split at h
        next => exact absurd h (by simp)
        next closeIndex hfc =>
          split at h
          next hcr => exact absurd h (by simp)
          next hcr =>
            split at h
            next hrich =>
              split at h
              next hpf0 =>
                have hop := take_eq_imp_le (matchChars_take hmc)
                have hop1 : 1 ≤ op.length := by
                  simpa using (hCH _ (matchChars_mem hmc)).1
                have hcl1 : 1 ≤ cl.length := by
                  simpa using (hCH _ (matchChars_mem hmc)).2
                obtain ⟨hge, hle⟩ := findCloseIndex_bounds hfc
                have hinner : (jsSlice s op.length closeIndex).length + 2 ≤ s.length := by
                  have h1 : (List.take closeIndex s).length ≤ closeIndex :=
                    List.length_take_le _ _
                  simp only [jsSlice, List.length_drop]
                  omega
                have := hpf _ hinner
                rw [hpf0] at this
                exact absurd this (by simp)
              next content hpf0 => exact absurd h (by simp)
            next hrich => exact absurd h (by simp)

theorem inlineSteps_k_pos {pf : Str → Option (List SNode)}
    {f : Str → Option (Option (SNode × Nat))} {s : Str} {tok : SNode} {k : Nat}
    (hf : f ∈ inlineSteps pf) (h : f s = some (some (tok, k))) : 1 ≤ k := by
  simp only [inlineSteps, List.mem_cons, List.not_mem_nil, or_false] at hf
  rcases hf with rfl | rfl | rfl | rfl | rfl | rfl | rfl | rfl | rfl | rfl | rfl
  · injection h with h
    obtain ⟨cp, _, hk⟩ := tryLink_eq_some h
    omega
  all_goals exact create_k_pos (by decide) h

theorem inlineSteps_ne_none {pf : Str → Option (List SNode)} {s : Str}
    (hpf : ∀ t, t.length + 2 ≤ s.length → (pf t).isSome) :
    ∀ f ∈ inlineSteps pf, f s ≠ none := by
  intro f hf
  simp only [inlineSteps, List.mem_cons, List.not_mem_nil, or_false] at hf
  rcases hf with rfl | rfl | rfl | rfl | rfl | rfl | rfl | rfl | rfl | rfl | rfl
  · simp
  all_goals exact create_ne_none hpf (by decide)

/-- Termination of the inline parser: the fuel `s.length + 1` never runs
out, because every iteration of the while-loop strictly advances the scan
index and every nested `state.parse` call works on a strictly shorter
slice. -/
theorem parseInlineGo_isSome : ∀ (fuel : Nat) (s : Str), s.length < fuel →
    (parseInlineGo fuel s).isSome := by
  intro fuel
  induction fuel with
  | zero => intro s h; omega
  | succ fuel ih =>
    intro s h
    cases s with
    | nil => simp [parseInlineGo]
    | cons c rest =>
      simp only [List.length_cons] at h
      have hpf : ∀ t : Str, t.length + 2 ≤ (c :: rest).length →
          (parseInlineGo fuel t).isSome := by
        intro t ht
        simp only [List.length_cons] at ht
        exact ih t (by omega)
      cases hc : inlineChain (inlineSteps (parseInlineGo fuel)) (c :: rest) with
      | none => exact absurd hc (inlineChain_ne_none (inlineSteps_ne_none hpf))
      | some o =>
        cases o with
        | none =>
          simp only [parseInlineGo, hc, Option.isSome_map']
          exact ih rest (by omega)
        | some r =>
          obtain ⟨tok, k⟩ := r
          obtain ⟨f, hfmem, hfs⟩ := inlineChain_eq_someSome hc
          have hk := inlineSteps_k_pos hfmem hfs
          simp only [parseInlineGo, hc, Option.isSome_map']
          apply ih
          simp only [List.length_drop, List.length_cons]
          omega

/-! ## Helper lemmas: block parser -/

theorem jsLen_pos (b : SNode) : 1 ≤ jsLen b := by
  rcases b with _ | ⟨ty, c, _ | ⟨_ | k⟩⟩ <;> simp [jsLen]

theorem matchLine_eq_some {rm : Str → Option (List Str)} {ty : String}
    {pI : Str → List SNode} {l : Str} {b : SNode}
    (h : matchLine rm ty pI l = some b) :
    ∃ caps, rm l = some caps ∧
      b = .node ty (caps.map SNode.text ++ pI (l.drop (capsLen caps))) (some 1) := by
  unfold matchLine at h
  rw [Option.map_eq_some'] at h
  obtain ⟨caps, h1, h2⟩ := h
  exact ⟨caps, h1, h2.symm⟩

theorem codeBlock_eq_some {lines : List Str} {b : SNode}
    (h : codeBlock lines = some b) :
    ∃ l rest fence lang i, lines = l :: rest ∧ OPEN_match l = some (fence, lang) ∧
      findClosingLine rest = some i ∧ i < rest.length ∧
      b = .node "code_block"
        ([.text fence, .text lang, .text ['\n']] ++
          (if i = 0 then [SNode.text []]
           else [.text (joinNL (rest.take i)), .text ['\n']]) ++
          [.text ((rest[i]?).getD [])])
        (some (i + 2)) := by
  unfold codeBlock at h
  split at h
  next => exact absurd h (by simp)
  next l rest =>
    split at h
    next => exact absurd h (by simp)
    next p fence lang hopen =>
      split at h
      next => exact absurd h (by simp)
      next i hclose =>
        have hbound : i < rest.length := by
          unfold findClosingLine at hclose
          rw [List.findIdx?_eq_some_iff_findIdx_eq] at hclose
          exact hclose.1
        injection h with h
        exact ⟨l, rest, fence, lang, i, rfl, hopen, hclose, hbound, h.symm⟩

theorem tryParsers_eq_some_bounds {t : Bool} {lines : List Str} {b : SNode}
    (h : tryParsers t lines = some b) : 1 ≤ jsLen b ∧ jsLen b ≤ lines.length := by
  refine ⟨jsLen_pos b, ?_⟩
  cases lines with
  | nil => simp [tryParsers] at h
  | cons l rest =>
    unfold tryParsers at h
    simp only [] at h
    rcases h1 : codeBlock (l :: rest) with _ | cb
    · rw [h1, Option.none_orElse] at h
      have hml : ∀ (rm : Str → Option (List Str)) (ty : String) pI b',
          matchLine rm ty pI l = some b' → jsLen b' ≤ (l :: rest).length := by
        intro rm ty pI b' hb
        obtain ⟨caps, _, h2⟩ := matchLine_eq_some hb
        subst h2
        simp [jsLen]
      rcases h2 : matchLine HEADING_match "heading" _ l with _ | b2
      · rw [h2, Option.none_orElse] at h
        rcases h3 : matchLine HR_match "horizontal_rule" _ l with _ | b3
        · rw [h3, Option.none_orElse] at h
          rcases h4 : matchLine TODO_ITEM_match "todo_item" _ l with _ | b4
          · rw [h4, Option.none_orElse] at h
            rcases h5 : matchLine ORDERED_ITEM_match "ordered_list_item" _ l with _ | b5
            · rw [h5, Option.none_orElse] at h
              rcases h6 : matchLine UNORDERED_ITEM_match "unordered_list_item" _ l with _ | b6
              · rw [h6, Option.none_orElse] at h
                rcases h7 : matchLine BLOCKQUOTE_match "blockquote" _ l with _ | b7
                · rw [h7, Option.none_orElse] at h
                  unfold paragraph at h
                  split at h
                  · injection h with h; subst h; simp [jsLen]
                  · exact absurd h (by simp)
                · rw [h7, Option.some_orElse] at h
                  injection h with h; subst h; exact hml _ _ _ _ h7
              · rw [h6, Option.some_orElse] at h
                injection h with h; subst h; exact hml _ _ _ _ h6
            · rw [h5, Option.some_orElse] at h
              injection h with h; subst h; exact hml _ _ _ _ h5
          · rw [h4, Option.some_orElse] at h
            injection h with h; subst h; exact hml _ _ _ _ h4
        · rw [h3, Option.some_orElse] at h
          injection h with h; subst h; exact hml _ _ _ _ h3
      · rw [h2, Option.some_orElse] at h
        injection h with h; subst h; exact hml _ _ _ _ h2
    · rw [h1, Option.some_orElse] at h
      injection h with h; subst h
      obtain ⟨l', rest', fence, lang, i, heq, _, _, hbound, hb⟩ := codeBlock_eq_some h1
      injection heq with he1 he2
      subst hb; subst he2
      simp only [jsLen, List.length_cons]
      omega

theorem parseBlockGo_isSome : ∀ (fuel : Nat) (t : Bool) (lines : List Str),
    lines.length < fuel → (parseBlockGo fuel t lines).isSome := by
  intro fuel
  induction fuel with
  | zero => intro t lines h; omega
  | succ fuel ih =>
    intro t lines h
    cases lines with
    | nil => simp [parseBlockGo]
    | cons l rest =>
      simp only [List.length_cons] at h
      unfold parseBlockGo
      cases htp : tryParsers t (l :: rest) with
      | some b =>
        simp only [Option.isSome_map']
        apply ih
        have := (tryParsers_eq_some_bounds htp).1
        simp only [List.length_drop, List.length_cons]
        omega
      | none =>
        simp only [Option.isSome_map']
        exact ih t rest (by omega)

theorem parseBlockGo_sum : ∀ (fuel : Nat) (t : Bool) (lines : List Str)
    (bs : List SNode), parseBlockGo fuel t lines = some bs →
    sumSpans bs = lines.length := by
  intro fuel
  induction fuel with
  | zero => intro t lines bs h; simp [parseBlockGo] at h
  | succ fuel ih =>
    intro t lines bs h
    cases lines with
    | nil =>
      simp only [parseBlockGo, Option.some.injEq] at h
      subst h; simp [sumSpans]
    | cons l rest =>
      unfold parseBlockGo at h
      cases htp : tryParsers t (l :: rest) with
      | some b =>
        rw [htp, Option.map_eq_some'] at h
        obtain ⟨bs', h1, h2⟩ := h
        subst h2
        have hsum := ih t _ _ h1
        obtain ⟨hge, hle⟩ := tryParsers_eq_some_bounds htp
        simp only [sumSpans, List.map_cons, List.sum_cons] at hsum ⊢
        simp only [List.length_drop, List.length_cons] at hsum
        simp only [List.length_cons] at hle ⊢
        omega
      | none =>
        rw [htp, Option.map_eq_some'] at h
        obtain ⟨bs', h1, h2⟩ := h
        subst h2
        have hsum := ih t _ _ h1
        simp only [sumSpans, List.map_cons, List.sum_cons] at hsum ⊢
        simp only [List.length_drop, List.length_cons] at hsum
        simp only [List.length_cons]
        have : jsLen placeholderPara = 1 := rfl
        omega

/-- Fuel does not matter once it exceeds the line count. -/
theorem parseBlockGo_fuel_irrel : ∀ (fuel fuel' : Nat) (t : Bool)
    (lines : List Str), lines.length < fuel → lines.length < fuel' →
    parseBlockGo fuel t lines = parseBlockGo fuel' t lines := by
  intro fuel
  induction fuel with
  | zero => intro fuel' t lines h h'; omega
  | succ fuel ih =>
    intro fuel' t lines h h'
    cases fuel' with
    | zero => omega
    | succ fuel' =>
      cases lines with
      | nil => simp [parseBlockGo]
      | cons l rest =>
        simp only [List.length_cons] at h h'
        cases htp : tryParsers t (l :: rest) with
        | some b =>
          have := (tryParsers_eq_some_bounds htp).1
          simp only [parseBlockGo, htp]
          rw [ih fuel' t _ (by simp only [List.length_drop, List.length_cons]; omega)
            (by simp only [List.length_drop, List.length_cons]; omega)]
        | none =>
          simp only [parseBlockGo, htp, List.drop_one, List.tail_cons]
          rw [ih fuel' t rest (by omega) (by omega)]

theorem takeWhile_all {p : Char → Bool} :
    ∀ l : Str, (∀ c ∈ l, p c = true) → l.takeWhile p = l := by
  intro l hl
  induction l with
  | nil => rfl
  | cons c r ih =>
    rw [List.takeWhile_cons, if_pos (hl c (List.mem_cons_self c r))]
    rw [ih (fun x hx => hl x (List.mem_cons_of_mem c hx))]

/-- No block rule matches a whitespace-only line. -/
theorem tryParsers_blank {l : Str} {post : List Str}
    (hl : ∀ c ∈ l, isWS c = true) (t : Bool) : tryParsers t (l :: post) = none := by
  have hopen : OPEN_match l = none := by
    unfold OPEN_match
    rw [if_neg]
    rintro ⟨h1, _⟩
    rw [show ((l.take 3 == [BACKTICK, BACKTICK, BACKTICK]) = true) ↔
        l.take 3 = [BACKTICK, BACKTICK, BACKTICK] from beq_iff_eq] at h1
    have hmem : BACKTICK ∈ l :=
      List.take_subset 3 l (by rw [h1]; exact List.mem_cons_self _ _)
    exact absurd (hl _ hmem) (by decide)
  have hcode : codeBlock (l :: post) = none := by
    simp [codeBlock, hopen]
  have hhead : HEADING_match l = none := by
    have hh : l.takeWhile (· == '#') = [] := by
      cases l with
      | nil => rfl
      | cons c r =>
        rw [List.takeWhile_cons, if_neg]
        intro hch
        rw [beq_iff_eq] at hch
        subst hch
        exact absurd (hl '#' (List.mem_cons_self _ _)) (by decide)
    simp [HEADING_match, hh]
  have hhr : HR_match l = none := by
    unfold HR_match
    rw [if_neg]
    rintro ⟨h3, h4⟩
    cases l with
    | nil => simp at h3
    | cons c r =>
      have hc := hl c (List.mem_cons_self c r)
      rcases h4 with h4 | h4 | h4 <;>
      · have hcc := (List.all_eq_true.mp h4) c (List.mem_cons_self c r)
        rw [beq_iff_eq] at hcc
        subst hcc
        exact absurd hc (by decide)
  have htodo : TODO_ITEM_match l = none := by
    unfold TODO_ITEM_match
    simp only [takeWhile_all l hl, List.drop_length]
  have hord : ORDERED_ITEM_match l = none := by
    unfold ORDERED_ITEM_match
    simp [takeWhile_all l hl, List.drop_length]
  have hunord : UNORDERED_ITEM_match l = none := by
    unfold UNORDERED_ITEM_match
    simp only [takeWhile_all l hl, List.drop_length]
  have hbq : BLOCKQUOTE_match l = none := by
    cases l with
    | nil => rfl
    | cons c r =>
      cases r with
      | nil => rfl
      | cons c2 r2 =>
        simp only [BLOCKQUOTE_match]
        rw [if_neg]
        rintro ⟨h1, _⟩
        subst h1
        exact absurd (hl '>' (List.mem_cons_self _ _)) (by decide)
  have hpara : ∀ pI : Str → List SNode, paragraph pI l = none := by
    intro pI
    unfold paragraph
    rw [if_neg]
    intro hany
    rw [List.any_eq_true] at hany
    obtain ⟨c, hmem, hc⟩ := hany
    rw [hl c hmem] at hc
    exact absurd hc (by decide)
  unfold tryParsers
  simp only [hcode, matchLine, hhead, hhr, htodo, hord, hunord, hbq, hpara,
    Option.map_none', Option.none_orElse]

theorem parseBlockLines_blank_cons {l : Str} {post : List Str}
    (hl : ∀ c ∈ l, isWS c = true) :
    parseBlockLines false (l :: post) = placeholderPara :: parseBlockLines false post := by
  obtain ⟨bs, hbs⟩ := Option.isSome_iff_exists.mp
    (parseBlockGo_isSome (post.length + 1) false post (by omega))
  unfold parseBlockLines
  rw [show (l :: post).length + 1 = (post.length + 1) + 1 from by simp]
  conv_lhs => rw [parseBlockGo]
  simp only [tryParsers_blank hl false, List.drop_one, List.tail_cons, hbs,
    Option.map_some', Option.getD_some]

/-- C10: for every finite input string, both the inline parser and the block
parser terminate: each loop iteration strictly advances the scan position,
so the fueled translations with fuel `length + 1` never exhaust their fuel
(`isSome`), on every input. -/
theorem C10_parser_termination :
    (∀ s : Str, (parseInlineGo (s.length + 1) s).isSome) ∧
    (∀ (typeOnly : Bool) (lines : List Str),
      (parseBlockGo (lines.length + 1) typeOnly lines).isSome) :=
  ⟨fun s => parseInlineGo_isSome (s.length + 1) s (by omega),
   fun t lines => parseBlockGo_isSome (lines.length + 1) t lines (by omega)⟩

/-- C6: a blank (whitespace-only) line is matched by no block rule and
yields the placeholder paragraph with empty content and lineSpan 1, and the
sum of `length || 1` over the blocks produced by the block parser equals the
number of input lines. -/
theorem C6_exact_line_accounting :
    (∀ value : Str, sumSpans (parseBlock value) = (splitNL value).length) ∧
    (∀ (l : Str) (post : List Str), (∀ c ∈ l, isWS c = true) →
      tryParsers false (l :: post) = none ∧
      parseBlockLines false (l :: post) = placeholderPara :: parseBlockLines false post) := by
  constructor
  · intro value
    obtain ⟨bs, hbs⟩ := Option.isSome_iff_exists.mp
      (parseBlockGo_isSome ((splitNL value).length + 1) false (splitNL value) (by omega))
    unfold parseBlock parseBlockLines
    rw [hbs, Option.getD_some]
    exact parseBlockGo_sum _ _ _ _ hbs
  · intro l post hl
    exact ⟨tryParsers_blank hl false, parseBlockLines_blank_cons hl⟩

/-- Witness for C6 at the concrete blank line consisting of one space. -/
theorem C6_witness :
    tryParsers false [[' ']] = none ∧
    parseBlockLines false [[' ']] = placeholderPara :: parseBlockLines false [] :=
  C6_exact_line_accounting.2 [' '] [] (by decide)

/-- C1 (code bug): the round-trip `serializeState(parseBlock(d), true) = d`
fails.  `serializeState` passes the `block` flag into its recursive call, so
a block whose content has more than one entry gets newlines inserted inside
it: "# hi" serializes to "#\n hi".  Independently, `tryLink` searches for
the closing parenthesis from the start of the scan, so a `)` inside the
bracket text makes even per-block leaf serialization lossy. -/
theorem C1_roundtrip_failure :
    serializeState (parseBlock (str "# hi")) true = str "#\n hi" ∧
    str "#\n hi" ≠ str "# hi" ∧
    serializeDocSpec (parseBlock (str "[a)b](c)")) = str "[a)b]()b](c)" ∧
    str "[a)b]()b](c)" ≠ str "[a)b](c)" :=
  ⟨by decide, by decide, by decide, by decide⟩

/-- C5 (code bug): with no closing fence, the opening line falls through to
the paragraph rule (no code_block is produced and parsing succeeds), the
reconciler's per-block serialization reproduces the document, and a closed
fence spans `closing − open + 1` lines (here 3); but the document-level
`serializeState(·, true)` does not reproduce the input, by the same
`serializeState` slip recorded at C1. -/
theorem C5_unterminated_fence :
    parseBlock (str "```js\nconsole.log(1)") =
      [.node "paragraph" [.node "code" [.text (str "`"), .text [], .text (str "`")] none,
        .text (str "`js")] (some 1),
       .node "paragraph" [.text (str "console.log(1)")] (some 1)] ∧
    serializeDocSpec (parseBlock (str "```js\nconsole.log(1)")) =
      str "```js\nconsole.log(1)" ∧
    serializeState (parseBlock (str "```js\nconsole.log(1)")) true ≠
      str "```js\nconsole.log(1)" ∧
    parseBlock (str "```js\nx\n```") =
      [.node "code_block" [.text (str "```"), .text (str "js"), .text (str "\n"),
        .text (str "x"), .text (str "\n"), .text (str "```")] (some 3)] :=
  ⟨by decide, by decide, by decide, by decide⟩

/-! ## Claims C4 and C9: symmetric inline markers and tags -/

/-- C4 (amended): for a symmetric marker configuration matched at the
current position by `matchChars`, `create` (with `contentRequired = false`,
as for every symmetric marker) produces a node exactly when the character
immediately after the opening marker exists and is not whitespace and some
valid closing occurrence exists; the chosen closer is the nearest valid
occurrence, and when no valid closer exists `create` declines so the parser
falls through to the lower-priority rules.  Amendment forced by the
counterexample: the claim's final clause — that the opening characters are
then emitted as plain text — does not hold, because a lower-priority marker
rule can still consume those characters (in "**x" the failed `**` opening
is eaten by the emphasis rule as an empty `em` node). -/
theorem C4_symmetric_marker_matching
    (pf : Str → Option (List SNode)) (hpf : ∀ t, (pf t).isSome)
    (CH : List (Str × Str)) (ty : String) (rich : Bool) (s m : Str)
    (hmc : matchChars CH s = some (m, m)) (hm : 1 ≤ m.length) :
    ((∃ tok k, create pf CH ty rich false s = some (some (tok, k))) ↔
      ((∃ c, s[m.length]? = some c ∧ isWS c = false) ∧ ∃ n, validCloseAt s m n)) ∧
    (∀ tok k, create pf CH ty rich false s = some (some (tok, k)) →
      ∃ n, findCloseIndex s m = some n ∧ validCloseAt s m n ∧
        (∀ n', validCloseAt s m n' → n ≤ n') ∧ k = n + m.length) ∧
    ((¬ ∃ n, validCloseAt s m n) → create pf CH ty rich false s = some none) := by
  refine ⟨⟨?_, ?_⟩, ?_, ?_⟩
  · rintro ⟨tok, k, h⟩
    obtain ⟨op, cl, closeIndex, nextChar, hmc2, hnc, hws, hfc, _, _, _⟩ :=
      create_eq_some h
    rw [hmc] at hmc2
    injection hmc2 with hmc2
    injection hmc2 with hop hcl
    subst hop; subst hcl
    rw [findCloseIndex_eq_some_iff s m hm] at hfc
    exact ⟨⟨nextChar, hnc, hws⟩, closeIndex, hfc.1⟩
  · rintro ⟨⟨c, hnc, hws⟩, n0, hn0⟩
    cases hfc : findCloseIndex s m with
    | none =>
      rw [findCloseIndex_eq_none_iff s m hm] at hfc
      exact absurd hn0 (hfc n0)
    | some n =>
      obtain ⟨content, hcontent⟩ := Option.isSome_iff_exists.mp
        (hpf (jsSlice s m.length n))
      obtain ⟨tok, htok⟩ := create_succeeds hmc hnc hws hfc
        (show ¬((false : Bool) = true ∧ n = m.length) by simp)
        (fun _ => ⟨content, hcontent⟩)
      exact ⟨tok, n + m.length, htok⟩
  · intro tok k h
    obtain ⟨op, cl, closeIndex, nextChar, hmc2, hnc, hws, hfc, _, hk, _⟩ :=
      create_eq_some h
    rw [hmc] at hmc2
    injection hmc2 with hmc2
    injection hmc2 with hop hcl
    subst hop; subst hcl
    have hiff := (findCloseIndex_eq_some_iff s m hm closeIndex).mp hfc
    refine ⟨closeIndex, hfc, hiff.1, fun n' hn' => ?_, hk⟩
    by_contra hlt
    exact hiff.2 n' (by omega) hn'
  · intro hno
    have hfc : findCloseIndex s m = none := by
      rw [findCloseIndex_eq_none_iff s m hm]
      intro n hv
      exact hno ⟨n, hv⟩
    rcases hnc : s[m.length]? with _ | c
    · simp [create, hmc, hnc]
    · by_cases hws : isWS c = true
      · simp [create, hmc, hnc, hws]
      · simp [create, hmc, hnc, hws, hfc]

/-- Witness for C4 at the underline marker in "~a~" (both directions of the
matching rule at a concrete input, via the main theorem). -/
theorem C4_witness :
    ∃ tok k, create (fun _ => some []) UNDERLINE_CHARS "underline" true false
      (str "~a~") = some (some (tok, k)) :=
  ((C4_symmetric_marker_matching (fun _ => some []) (fun _ => rfl)
      UNDERLINE_CHARS "underline" true (str "~a~") (str "~")
      (by decide) (by decide)).1).mpr
    ⟨⟨'a', by decide, by decide⟩, 2, by decide⟩

/-- C4 counterexample: in "**x" the strong marker `**` opens and has no
valid closer, yet the opening characters are not degraded to plain text:
the emphasis rule consumes them as an empty `em` node. -/
theorem C4_counterexample :
    matchChars STRONG_CHARS (str "**x") = some (str "**", str "**") ∧
    findCloseIndex (str "**x") (str "**") = none ∧
    parseInline (str "**x") =
      [.node "em" [.text (str "*"), .text (str "*")] none, .text (str "x")] :=
  ⟨by decide, by decide, by decide⟩

/-- C9 (amended): a produced tag node requires a closing '#', non-empty
content between the two '#' markers (`contentRequired`), and non-whitespace
characters immediately after the opening '#' and immediately before the
closing '#'; interior whitespace in the content is not rejected (see the
counterexample). -/
theorem C9_tag_production {pf : Str → Option (List SNode)} {s : Str}
    {tok : SNode} {k : Nat}
    (h : create pf TAG_CHARS "tag" false true s = some (some (tok, k))) :
    ∃ n nextChar, findCloseIndex s (str "#") = some n ∧
      tok = .node "tag" [.text (str "#"), .text (jsSlice s 1 n), .text (str "#")] none ∧
      1 ≤ (jsSlice s 1 n).length ∧
      s[1]? = some nextChar ∧ isWS nextChar = false ∧
      (∀ c, s[n - 1]? = some c → isWS c = false) ∧
      k = n + 1 := by
  obtain ⟨op, cl, closeIndex, nextChar, hmc, hnc, hws, hfc, hcr, hk, hor⟩ :=
    create_eq_some h
  have hop : op = str "#" ∧ cl = str "#" := by
    have := matchChars_mem hmc
    rw [show TAG_CHARS = [(str "#", str "#")] from rfl, List.mem_singleton] at this
    injection this with h1 h2
    exact ⟨h1, h2⟩
  obtain ⟨hop1, hcl1⟩ := hop
  subst hop1; subst hcl1
  obtain ⟨hge, hle⟩ := findCloseIndex_bounds hfc
  have hvalid := (findCloseIndex_eq_some_iff s (str "#") (by decide) closeIndex).mp hfc
  have hne := hcr rfl
  have hlen1 : (str "#").length = 1 := rfl
  rw [hlen1] at hge hle
  have hcontentlen : 1 ≤ (jsSlice s 1 closeIndex).length := by
    have h2 : 2 ≤ closeIndex := by
      rcases Nat.lt_or_ge closeIndex 2 with hlt | hge2
      · exfalso
        have h1 : closeIndex = 1 := by omega
        rw [h1] at hne
        exact hne (by decide)
      · exact hge2
    have htk : (List.take closeIndex s).length = closeIndex :=
      List.length_take_of_le (by omega)
    simp only [jsSlice, List.length_drop, htk]
    omega
  rcases hor with ⟨hrich, _⟩ | ⟨_, htok⟩
  · exact absurd hrich (by simp)
  · exact ⟨closeIndex, nextChar, hfc, by simpa using htok, hcontentlen,
      by simpa using hnc, hws, hvalid.1.2.2, by simpa using hk⟩

/-- Witness for C9 at the concrete input "#ab#". -/
theorem C9_witness :
    ∃ n nextChar, findCloseIndex (str "#ab#") (str "#") = some n ∧
      SNode.node "tag" [.text (str "#"), .text (str "ab"), .text (str "#")] none =
        .node "tag" [.text (str "#"), .text (jsSlice (str "#ab#") 1 n), .text (str "#")] none ∧
      1 ≤ (jsSlice (str "#ab#") 1 n).length ∧
      (str "#ab#")[1]? = some nextChar ∧ isWS nextChar = false ∧
      (∀ c, (str "#ab#")[n - 1]? = some c → isWS c = false) ∧
      4 = n + 1 :=
  @C9_tag_production (fun _ => none) (str "#ab#")
    (.node "tag" [.text (str "#"), .text (str "ab"), .text (str "#")] none) 4
    (by decide)

/-- C9 counterexample: "#a b#" parses to a tag node whose content "a b"
contains a space, contradicting the claim that a produced tag's content
never contains whitespace. -/
theorem C9_counterexample :
    parseInline (str "#a b#") =
      [.node "tag" [.text (str "#"), .text (str "a b"), .text (str "#")] none] ∧
    ' ' ∈ str "a b" :=
  ⟨by decide, by decide⟩

/-! ## Claim C8: task items -/

theorem takeWhile_ws_append (w r : Str) (hw : ∀ x ∈ w, isWS x = true)
    (hr : ∀ c rest, r = c :: rest → isWS c = false) :
    (w ++ r).takeWhile isWS = w := by
  induction w with
  | nil =>
    cases r with
    | nil => rfl
    | cons c rest =>
      simp only [List.nil_append, List.takeWhile_cons, hr c rest rfl,
        Bool.false_eq_true, if_false]
  | cons x w' ih =>
    simp only [List.cons_append, List.takeWhile_cons,
      hw x (List.mem_cons_self x w'), if_true]
    rw [ih (fun y hy => hw y (List.mem_cons_of_mem x hy))]

/-- C8 (amended): a line of optional leading whitespace, a task marker
"- [c] " with c either a space or a lowercase 'x', and arbitrary trailing
text is classified as a todo_item block whose content preserves the leading
indentation verbatim; an uppercase 'X' is not accepted (the line then falls
through to the unordered-list rule — see the counterexample). -/
theorem C8_task_item (w rest : Str) (c : Char)
    (hw : ∀ x ∈ w, isWS x = true) (hc : c = ' ' ∨ c = 'x') :
    parseBlockLines false [w ++ '-' :: ' ' :: '[' :: c :: ']' :: ' ' :: rest] =
      [.node "todo_item"
        ([.text w, .text ['-', ' ', '[', c, ']'], .text [' ']] ++ parseInline rest)
        (some 1)] := by
  set l : Str := w ++ '-' :: ' ' :: '[' :: c :: ']' :: ' ' :: rest with hldef
  have hwl : l.takeWhile isWS = w :=
    takeWhile_ws_append w _ hw (by rintro c0 r0 h0; injection h0 with h0 _; subst h0; decide)
  have hdropw : l.drop w.length = '-' :: ' ' :: '[' :: c :: ']' :: ' ' :: rest := by
    rw [hldef]
    have := List.drop_left w ('-' :: ' ' :: '[' :: c :: ']' :: ' ' :: rest)
    exact this
  have hcode : codeBlock [l] = none := by
    simp only [codeBlock]
    rcases hop : OPEN_match l with _ | p <;> simp [hop, findClosingLine]
  have hhead : HEADING_match l = none := by
    have hh : l.takeWhile (· == '#') = [] := by
      rw [hldef]
      cases w with
      | nil => simp [List.takeWhile_cons]
      | cons x w' =>
        rw [List.cons_append, List.takeWhile_cons, if_neg]
        intro hx
        rw [beq_iff_eq] at hx
        subst hx
        exact absurd (hw '#' (List.mem_cons_self _ _)) (by decide)
    simp [HEADING_match, hh]
  have hmembr : '[' ∈ l := by
    rw [hldef]
    exact List.mem_append_right w (by simp)
  have hhr : HR_match l = none := by
    unfold HR_match
    rw [if_neg]
    rintro ⟨h3, h4⟩
    rcases h4 with h4 | h4 | h4 <;>
    · have := (List.all_eq_true.mp h4) '[' hmembr
      rw [beq_iff_eq] at this
      exact absurd this (by decide)
  have htodo : TODO_ITEM_match l =
      some [w, ['-', ' ', '[', c, ']'], [' ']] := by
    unfold TODO_ITEM_match
    simp only [hwl, hdropw]
    rcases hc with rfl | rfl <;> simp
  have hcaps : capsLen [w, ['-', ' ', '[', c, ']'], [' ']] = w.length + 6 := by
    simp [capsLen]
  have hdropcaps : l.drop (w.length + 6) = rest := by
    have hsplit : l = (w ++ ['-', ' ', '[', c, ']', ' ']) ++ rest := by
      rw [hldef]; simp
    have hlen6 : (w ++ ['-', ' ', '[', c, ']', ' ']).length = w.length + 6 := by simp
    rw [hsplit, ← hlen6]
    exact List.drop_left _ _
  have htry : tryParsers false [l] =
      some (.node "todo_item"
        ([.text w, .text ['-', ' ', '[', c, ']'], .text [' ']] ++ parseInline rest)
        (some 1)) := by
    unfold tryParsers
    simp only [hcode, Option.none_orElse, matchLine, hhead, hhr, htodo,
      Option.map_none', Option.map_some']
    rw [hcaps, hdropcaps]
    rfl
  unfold parseBlockLines
  simp only [List.length_cons, List.length_nil]
  conv_lhs => rw [parseBlockGo]
  simp only [htry, Option.map_some']
  have hlen : jsLen (SNode.node "todo_item"
      ([.text w, .text ['-', ' ', '[', c, ']'], .text [' ']] ++ parseInline rest)
      (some 1)) = 1 := rfl
  rw [hlen]
  simp [parseBlockGo]

/-- Witness for C8 at the concrete line "  - [x] hi". -/
theorem C8_witness :
    parseBlockLines false [[' ', ' '] ++ '-' :: ' ' :: '[' :: 'x' :: ']' :: ' ' :: str "hi"] =
      [.node "todo_item"
        ([.text [' ', ' '], .text ['-', ' ', '[', 'x', ']'], .text [' ']] ++
          parseInline (str "hi"))
        (some 1)] :=
  C8_task_item [' ', ' '] (str "hi") 'x' (by decide) (by decide)

/-- C8 counterexample: an uppercase checked marker "- [X] a" is not
classified as a task item; it parses as an unordered list item, so the
checked state is not read case-insensitively. -/
theorem C8_counterexample :
    (parseBlock (str "- [X] a")).map SNode.typeOf = ["unordered_list_item"] ∧
    "unordered_list_item" ≠ "todo_item" :=
  ⟨by decide, by decide⟩

/-! ## Claims C3 and C7: decoration planner -/

theorem enterDecos_wys (c c' : Nat × Nat) (anc : List String) (name : String)
    (f t : Nat) : enterDecos true c anc name f t = enterDecos true c' anc name f t := by
  simp only [enterDecos, Bool.true_or]

mutual

theorem processNode_wys (c c' : Nat × Nat) :
    ∀ (anc : List String) (n : SynNode),
      processNode true c anc n = processNode true c' anc n
  | anc, .mk name f t ch => by
    simp only [processNode, Bool.not_true, Bool.and_false, Bool.false_eq_true,
      if_false]
    rw [enterDecos_wys c c', processList_wys c c' (anc ++ [name]) ch]

theorem processList_wys (c c' : Nat × Nat) :
    ∀ (anc : List String) (l : List SynNode),
      processList true c anc l = processList true c' anc l
  | _, [] => rfl
  | anc, n :: rest => by
    simp only [processList]
    rw [processNode_wys c c' anc n, processList_wys c c' anc rest]

end

/-- C7: with the WYSIWYG switch enabled the decoration planner's output is
independent of the caret: every focused check is short-circuited, so any two
selections produce identical decoration sets for the same syntax tree. -/
theorem C7_wysiwyg_cursor_independence :
    ∀ (cursor cursor2 : Nat × Nat) (anc : List String) (n : SynNode),
      processNode true cursor anc n = processNode true cursor2 anc n :=
  fun c c' anc n => processNode_wys c c' anc n

/-- C3: the planner's focus test is strict containment
(`cursor.from >= node.from && cursor.to <= node.to`), and for a focused rich
element with WYSIWYG off the traversal does not descend into the node's
children (its output is independent of them) and emits no syntax-hiding
(`wp-markup-hidden`) decoration for that node. -/
theorem C3_focused_rich_elements :
    (∀ (cursor : Nat × Nat) (f t : Nat),
      cursorInNode cursor f t = true ↔ (f ≤ cursor.1 ∧ cursor.2 ≤ t)) ∧
    (∀ (cursor : Nat × Nat) (anc : List String) (name : String) (f t : Nat)
      (ch ch2 : List SynNode), richElements.contains name = true →
      f ≤ cursor.1 → cursor.2 ≤ t →
      processNode false cursor anc (.mk name f t ch) =
        processNode false cursor anc (.mk name f t ch2)) ∧
    (∀ (cursor : Nat × Nat) (anc : List String) (name : String) (f t : Nat)
      (ch : List SynNode) (d : String × Nat × Nat),
      richElements.contains name = true → f ≤ cursor.1 → cursor.2 ≤ t →
      d ∈ processNode false cursor anc (.mk name f t ch) →
      d.1 ≠ "wp-markup-hidden") := by
  have hin : ∀ (cursor : Nat × Nat) (f t : Nat), f ≤ cursor.1 → cursor.2 ≤ t →
      cursorInNode cursor f t = true := by
    intro cursor f t h1 h2
    simp [cursorInNode, h1, h2]
  refine ⟨?_, ?_, ?_⟩
  · intro cursor f t
    simp [cursorInNode]
  · intro cursor anc name f t ch ch2 hrich h1 h2
    simp only [processNode, hrich, hin cursor f t h1 h2, Bool.not_false,
      Bool.true_and, Bool.and_true, if_true]
  · intro cursor anc name f t ch d hrich h1 h2 hd
    simp only [processNode, hrich, hin cursor f t h1 h2, Bool.not_false,
      Bool.true_and, Bool.and_true, if_true, List.append_nil] at hd
    have hmem : name ∈ richElements := by
      have := List.mem_of_elem_eq_true hrich
      exact this
    simp only [richElements, List.mem_cons, List.not_mem_nil, or_false] at hmem
    rcases hmem with rfl | rfl | rfl | rfl | rfl | rfl | rfl | rfl | rfl | rfl |
      rfl | rfl | rfl | rfl <;>
      simp [enterDecos, hin cursor f t h1 h2] at hd <;>
      simp [hd]

/-- Witness for C3: a caret strictly inside an `Emphasis` node makes its
output independent of the children, and the decoration a focused
`FencedCode` node emits is not the syntax-hiding one. -/
theorem C3_witness :
    (cursorInNode (2, 3) 0 5 = true ↔ (0 ≤ 2 ∧ 3 ≤ 5)) ∧
    processNode false (2, 3) [] (.mk "Emphasis" 0 5 [.mk "EmphasisMark" 0 1 []]) =
      processNode false (2, 3) [] (.mk "Emphasis" 0 5 []) ∧
    ("wp-code-block", (0 : Nat), (5 : Nat)).1 ≠ "wp-markup-hidden" :=
  ⟨C3_focused_rich_elements.1 (2, 3) 0 5,
   C3_focused_rich_elements.2.1 (2, 3) [] "Emphasis" 0 5
     [.mk "EmphasisMark" 0 1 []] [] (by decide) (by decide) (by decide),
   C3_focused_rich_elements.2.2 (2, 3) [] "FencedCode" 0 5 [] _
     (by decide) (by decide) (by decide) (by decide)⟩

/-! ## Claim C2: reconciler frame property — helper layer -/

theorem splitNL_no_nl : ∀ l : Str, '\n' ∉ l → splitNL l = [l] := by
  intro l hl
  induction l with
  | nil => rfl
  | cons c rest ih =>
    unfold splitNL
    rw [if_neg (by intro hc; exact hl (hc ▸ List.mem_cons_self c rest))]
    rw [ih (fun hmem => hl (List.mem_cons_of_mem c hmem))]

theorem jsLen_classify (t : Bool) (l : Str) : jsLen (classify t l) = 1 := by
  cases htp : tryParsers t [l] with
  | none => simp only [classify, htp]; rfl
  | some b =>
    simp only [classify, htp]
    obtain ⟨h1, h2⟩ := tryParsers_eq_some_bounds htp
    simp only [List.length_cons, List.length_nil] at h2
    omega

theorem fenceOpen_false_open_none {l : Str} (h : fenceOpen l = false) :
    OPEN_match l = none := by
  unfold fenceOpen at h
  cases hop : OPEN_match l with
  | none => rfl
  | some p => rw [hop] at h; simp at h

theorem tryParsers_cons_stable {l : Str} (hf : fenceOpen l = false)
    (t : Bool) (rest : List Str) :
    tryParsers t (l :: rest) = tryParsers t [l] := by
  have hopen := fenceOpen_false_open_none hf
  have h1 : codeBlock (l :: rest) = none := by simp [codeBlock, hopen]
  have h2 : codeBlock [l] = none := by simp [codeBlock, hopen]
  unfold tryParsers
  rw [h1, h2]

theorem classify_eq_of_tryParsers {l : Str} {t : Bool} {b : SNode}
    (h : tryParsers t [l] = some b) : classify t l = b := by
  unfold classify
  rw [h]

theorem parseBlockLines_cons_stable {l : Str} (hf : fenceOpen l = false)
    (t : Bool) (rest : List Str) :
    parseBlockLines t (l :: rest) = classify t l :: parseBlockLines t rest := by
  obtain ⟨bs, hbs⟩ := Option.isSome_iff_exists.mp
    (parseBlockGo_isSome (rest.length + 1) t rest (by omega))
  unfold parseBlockLines
  rw [show (l :: rest).length + 1 = (rest.length + 1) + 1 from by simp]
  conv_lhs => rw [parseBlockGo]
  rw [tryParsers_cons_stable hf t rest]
  cases htp : tryParsers t [l] with
  | none =>
    have hcls : classify t l = placeholderPara := by simp only [classify, htp]
    simp only [List.drop_one, List.tail_cons, hbs, Option.map_some',
      Option.getD_some, hcls]
  | some b =>
    have hcls : classify t l = b := by simp only [classify, htp]
    have hlen : jsLen b = 1 := by
      obtain ⟨h1, h2⟩ := tryParsers_eq_some_bounds htp
      simp only [List.length_cons, List.length_nil] at h2
      omega
    simp only [hlen, List.drop_one, List.tail_cons, hbs, Option.map_some',
      Option.getD_some, hcls]

theorem findIdx_append_left {α : Type} (p : α → Bool) :
    ∀ (l r : List α) (s i : Nat), List.findIdx? p l s = some i →
      List.findIdx? p (l ++ r) s = some i := by
  intro l
  induction l with
  | nil => intro r s i h; simp [List.findIdx?] at h
  | cons x xs ih =>
    intro r s i h
    rw [List.cons_append, List.findIdx?_cons]
    rw [List.findIdx?_cons] at h
    by_cases hp : p x = true
    · rw [if_pos hp] at h ⊢
      exact h
    · rw [if_neg hp] at h ⊢
      exact ih r (s + 1) i h

theorem blockLines_good {b : SNode} (h : goodBlock b) :
    blockLines b = [lineOfBlock b] := by
  unfold blockLines lineOfBlock
  exact splitNL_no_nl _ h.2.1

theorem blockLines_len_stable {b : SNode} (h : stableBlock b) :
    (blockLines b).length = jsLen b := by
  cases h with
  | inl hg => rw [blockLines_good hg, hg.1]; rfl
  | inr hc => exact hc.2.1

theorem sumSpans_ge_length : ∀ bs : List SNode, bs.length ≤ sumSpans bs := by
  intro bs
  induction bs with
  | nil => simp [sumSpans]
  | cons b rest ih =>
    have hb := jsLen_pos b
    simp only [sumSpans, List.map_cons, List.sum_cons, List.length_cons]
    simp only [sumSpans] at ih
    omega

theorem linesOf_cons (b : SNode) (rest : List SNode) :
    linesOf (b :: rest) = blockLines b ++ linesOf rest := by
  simp [linesOf]

theorem linesOf_len_stable : ∀ bs : List SNode, (∀ b ∈ bs, stableBlock b) →
    (linesOf bs).length = sumSpans bs := by
  intro bs
  induction bs with
  | nil => intro _; rfl
  | cons b rest ih =>
    intro h
    rw [linesOf_cons, List.length_append,
      blockLines_len_stable (h b (List.mem_cons_self b rest)),
      ih (fun x hx => h x (List.mem_cons_of_mem b hx))]
    simp [sumSpans]

theorem sumSpans_take_succ {state : List SNode} {i : Nat} {b : SNode}
    (h : state[i]? = some b) :
    sumSpans (state.take (i + 1)) = sumSpans (state.take i) + jsLen b := by
  rw [List.take_succ, h]
  simp [sumSpans, Option.toList]

/-- The `find` scan of `getNewState` at a block boundary: when the key is
the summed line span of the first `i` old blocks, the scan returns old
block `i` (spans are strictly positive, so the running sum first reaches
the key exactly there). -/
theorem findBlockAt_spans : ∀ (state : List SNode) (i : Nat),
    findBlockAt state (sumSpans (state.take i) : Int) = state[i]? := by
  intro state
  induction state with
  | nil => intro i; simp [findBlockAt]
  | cons b rest ih =>
    intro i
    cases i with
    | zero => simp [findBlockAt, sumSpans]
    | succ j =>
      have hpos := jsLen_pos b
      have hsum : sumSpans ((b :: rest).take (j + 1)) =
          jsLen b + sumSpans (rest.take j) := by
        simp [sumSpans, List.take_succ_cons]
      rw [hsum]
      unfold findBlockAt
      rw [if_neg (by omega)]
      rw [show ((jsLen b + sumSpans (rest.take j) : Nat) : Int) - (jsLen b : Int) =
        ((sumSpans (rest.take j) : Nat) : Int) from by push_cast; ring]
      rw [ih j]
      simp

/-- A stable code block followed by arbitrary lines reparses as a
`code_block` with the block's own line span: `findClosingLine` finds the
block's closing line before ever reaching the appended lines. -/
theorem codeBlock_code_append {b : SNode} (h : codeStable b) (rest : List Str) :
    ∃ c, codeBlock (blockLines b ++ rest) = some c ∧
      c.typeOf = "code_block" ∧ jsLen c = jsLen b := by
  obtain ⟨hty, hlen, h2, hopen, hcl⟩ := h
  cases hbl : blockLines b with
  | nil => rw [hbl] at h2; simp at h2
  | cons l0 tail =>
    rw [hbl] at hlen h2 hopen hcl
    simp only [List.headD_cons] at hopen
    simp only [List.drop_one, List.tail_cons, List.length_cons] at hcl
    simp only [List.length_cons] at hlen h2
    have htl : 1 ≤ tail.length := by omega
    obtain ⟨fl, hOM⟩ := Option.isSome_iff_exists.mp hopen
    have hidx : findClosingLine tail = some (tail.length - 1) := by
      rw [show tail.length - 1 = tail.length + 1 - 2 from by omega]
      exact hcl
    have hfc : findClosingLine (tail ++ rest) = some (tail.length - 1) := by
      unfold findClosingLine at hidx ⊢
      exact findIdx_append_left _ tail rest 0 _ hidx
    obtain ⟨fence, lang⟩ := fl
    rw [List.cons_append]
    have hcb : codeBlock (l0 :: (tail ++ rest)) = some (SNode.node "code_block"
        ([SNode.text fence, SNode.text lang, SNode.text ['\n']] ++
          (if tail.length - 1 = 0 then [SNode.text []]
           else [SNode.text (joinNL ((tail ++ rest).take (tail.length - 1))),
                 SNode.text ['\n']]) ++
          [SNode.text (((tail ++ rest)[tail.length - 1]?).getD [])])
        (some (tail.length - 1 + 2))) := by
      simp only [codeBlock, hOM, hfc]
    refine ⟨_, hcb, rfl, ?_⟩
    show tail.length - 1 + 2 = jsLen b
    omega

theorem tryParsers_code_append {b : SNode} (h : codeStable b) (t : Bool)
    (rest : List Str) :
    ∃ c, tryParsers t (blockLines b ++ rest) = some c ∧
      c.typeOf = b.typeOf ∧ jsLen c = jsLen b := by
  obtain ⟨c, hcb, hcty, hclen⟩ := codeBlock_code_append h rest
  refine ⟨c, ?_, by rw [hcty, h.1], hclen⟩
  have h2 := h.2.2.1
  cases hbl : blockLines b with
  | nil => rw [hbl] at h2; simp at h2
  | cons l0 tail =>
    rw [hbl] at hcb
    rw [List.cons_append] at hcb ⊢
    unfold tryParsers
    simp only []
    rw [hcb]
    rfl

/-- One step of the `parseBlock` loop consuming a run of lines whose
head-of-list parse spans exactly that run. -/
theorem parseBlockLines_step {t : Bool} {pre rest : List Str} {c : SNode}
    (hne : pre ≠ [])
    (htp : tryParsers t (pre ++ rest) = some c)
    (hlen : jsLen c = pre.length) :
    parseBlockLines t (pre ++ rest) = c :: parseBlockLines t rest := by
  obtain ⟨bs, hbs⟩ := Option.isSome_iff_exists.mp
    (parseBlockGo_isSome (rest.length + 1) t rest (by omega))
  cases pre with
  | nil => exact absurd rfl hne
  | cons l0 tail =>
    rw [List.cons_append] at htp ⊢
    simp only [List.length_cons] at hlen
    unfold parseBlockLines
    rw [show (l0 :: (tail ++ rest)).length + 1 =
      ((tail ++ rest).length + 1) + 1 from by simp]
    conv_lhs => rw [parseBlockGo]
    simp only [htp]
    rw [hlen, List.drop_succ_cons, List.drop_left]
    rw [parseBlockGo_fuel_irrel ((tail ++ rest).length + 1) (rest.length + 1) t rest
      (by simp only [List.length_append]; omega) (by omega)]
    simp only [hbs, Option.map_some', Option.getD_some, parseBlockLines]

theorem parseBlockLines_code_cons {b : SNode} (h : codeStable b) (t : Bool)
    (rest : List Str) :
    ∃ c, parseBlockLines t (blockLines b ++ rest) = c :: parseBlockLines t rest ∧
      c.typeOf = b.typeOf ∧ jsLen c = jsLen b := by
  obtain ⟨c, htp, hcty, hclen⟩ := tryParsers_code_append h t rest
  have h2 := h.2.2.1
  refine ⟨c, parseBlockLines_step ?_ htp ?_, hcty, hclen⟩
  · intro hnil
    rw [hnil] at h2
    simp at h2
  · rw [hclen, ← h.2.1]

/-- The type-only reparse of a stable block's own lines, in front of any
remaining lines, yields one block of the same type and line span followed
by the reparse of the remaining lines. -/
theorem parseBlockLines_stable_cons {b : SNode} (hs : stableBlock b)
    (rest : List Str) :
    ∃ c, parseBlockLines true (blockLines b ++ rest) =
        c :: parseBlockLines true rest ∧
      c.typeOf = b.typeOf ∧ jsLen c = jsLen b := by
  cases hs with
  | inl hg =>
    obtain ⟨h1, h2, h3, h4⟩ := hg
    refine ⟨classify true (lineOfBlock b), ?_, h4, by rw [jsLen_classify, h1]⟩
    rw [blockLines_good ⟨h1, h2, h3, h4⟩, List.singleton_append]
    exact parseBlockLines_cons_stable h3 true rest
  | inr hc => exact parseBlockLines_code_cons hc true rest

/-- Reuse phase of the `getNewState` loop: past the edited zone, with every
remaining old block stable (`stableBlock`), each loop step looks up the
old block at the running line offset and reuses the old block object
itself, advancing by the block's full line span. -/
theorem gnsGo_reuse (state : List SNode) (newLines : List Str)
    (tbLen lrLen fromI toI : Nat) :
    ∀ (suf : List SNode) (fuel i lineIndex : Nat) (acc : List SNode),
      (∀ b ∈ suf, stableBlock b) →
      tbLen + lrLen ≤ lineIndex →
      newLines.drop lineIndex = linesOf suf →
      state.drop i = suf →
      suf.length < fuel →
      gnsGo state newLines tbLen lrLen fromI toI fuel
        (parseBlockLines true (newLines.drop lineIndex)) lineIndex
        (sumSpans (state.take i) : Int) acc = acc ++ suf := by
  intro suf
  induction suf with
  | nil =>
    intro fuel i lineIndex acc _ _ hdropNL _ _
    rw [hdropNL, show linesOf ([] : List SNode) = [] from rfl,
      show parseBlockLines true ([] : List Str) = [] from rfl]
    cases fuel with
    | zero => simp [gnsGo]
    | succ f => simp [gnsGo]
  | cons b rest ih =>
    intro fuel i lineIndex acc hstab hge hdropNL hdropState hfuel
    cases fuel with
    | zero => simp at hfuel
    | succ f =>
      have hsb : stableBlock b := hstab b (List.mem_cons_self b rest)
      have hdropNL2 : newLines.drop lineIndex = blockLines b ++ linesOf rest := by
        rw [hdropNL, linesOf_cons]
      obtain ⟨c, hcons, hcty, hclen⟩ := parseBlockLines_stable_cons hsb (linesOf rest)
      rw [hdropNL2, hcons]
      conv_lhs => rw [gnsGo]
      rw [if_neg (by rintro ⟨_, h2⟩; omega)]
      have hsome : state[i]? = some b := by
        rw [← List.head?_drop, hdropState]; rfl
      simp only [findBlockAt_spans, hsome]
      rw [if_pos hcty.symm]
      rw [hclen]
      have h1 : newLines.drop (lineIndex + jsLen b) = linesOf rest := by
        rw [← List.drop_drop, hdropNL2, ← blockLines_len_stable hsb, List.drop_left]
      rw [show (sumSpans (state.take i) : Int) + (jsLen b : Int) =
        ((sumSpans (state.take (i + 1)) : Nat) : Int) from by
          rw [sumSpans_take_succ hsome]; push_cast; ring]
      have h2 : state.drop (i + 1) = rest := by
        rw [← List.drop_drop, hdropState]
        simp
      have hrec := ih f (i + 1) (lineIndex + jsLen b) (acc ++ [b])
        (fun x hx => hstab x (List.mem_cons_of_mem b hx)) (by omega) h1 h2
        (by simp only [List.length_cons] at hfuel; omega)
      rw [h1] at hrec
      rw [hrec]
      simp

/-- Prefix and edit phases of the `getNewState` loop for a one-line
paragraph edit at block index `p`: every old block before the edit is
reused by object (whatever its line span), the edited line is reparsed
into the new paragraph block, and the loop then enters the reuse phase
for the suffix. -/
theorem gnsGo_prefix_edit (state : List SNode) (newLines : List Str)
    (tbLen : Nat) (textL : Str) (P pb : SNode) (p : Nat)
    (htf : fenceOpen textL = false)
    (htp : tryParsers false [textL] = some P)
    (hP1 : jsLen P = 1) :
    ∀ (pref suf : List SNode) (fuel i lineIndex : Nat) (acc : List SNode),
      (∀ b ∈ pref, stableBlock b) →
      (∀ b ∈ suf, stableBlock b) →
      lineIndex = sumSpans (state.take i) →
      i + pref.length = p →
      tbLen = lineIndex + (linesOf pref).length →
      newLines.drop lineIndex = linesOf pref ++ textL :: linesOf suf →
      state.drop i = pref ++ pb :: suf →
      pref.length + suf.length + 1 < fuel →
      gnsGo state newLines tbLen 1 p p fuel
        (parseBlockLines true (newLines.drop lineIndex)) lineIndex
        (lineIndex : Int) acc = acc ++ pref ++ P :: suf := by
  intro pref
  induction pref with
  | nil =>
    intro suf fuel i lineIndex acc _ hgsuf hli hpos htb hdropNL hdropState hfuel
    have hip : i = p := by simpa using hpos
    rw [← hip]
    simp only [List.nil_append] at hdropState
    rw [show linesOf ([] : List SNode) = [] from rfl, List.nil_append] at hdropNL
    have htb2 : tbLen = lineIndex := htb
    cases fuel with
    | zero => simp at hfuel
    | succ f =>
      have hsomep : state[i]? = some pb := by
        rw [← List.head?_drop, hdropState]; rfl
      have hspan : sumSpans ((state.take (i + 1)).drop i) = jsLen pb := by
        rw [List.drop_take, hdropState, show i + 1 - i = 1 from by omega]
        simp [sumSpans]
      rw [hdropNL, parseBlockLines_cons_stable htf true]
      conv_lhs => rw [gnsGo]
      simp only [jsLen_classify]
      rw [if_pos (show tbLen < lineIndex + 1 ∧ lineIndex < tbLen + 1 from by omega)]
      rw [show parseBlockLines false (newLines.drop lineIndex) =
          P :: parseBlockLines false (linesOf suf) from by
        rw [hdropNL, parseBlockLines_cons_stable htf false,
          classify_eq_of_tryParsers htp]]
      simp only [takeBlocks, hP1, le_refl, if_true, hspan]
      rw [show (lineIndex : Int) + (((1 : Nat) : Int) - ((1 : Nat) : Int)) +
          ((jsLen pb : Nat) : Int) = ((sumSpans (state.take (i + 1)) : Nat) : Int) from by
        rw [hli, sumSpans_take_succ hsomep]; push_cast; ring]
      have h1 : newLines.drop (lineIndex + 1) = linesOf suf := by
        rw [← List.drop_drop, hdropNL]
        simp
      have h2 : state.drop (i + 1) = suf := by
        rw [← List.drop_drop, hdropState]
        simp
      have hrec := gnsGo_reuse state newLines tbLen 1 i i suf f (i + 1)
        (lineIndex + 1) (acc ++ [P]) hgsuf (by omega) h1 h2
        (by simp only [List.length_nil] at hfuel; omega)
      rw [hrec]
      simp
  | cons b pref2 ih =>
    intro suf fuel i lineIndex acc hgpref hgsuf hli hpos htb hdropNL hdropState hfuel
    cases fuel with
    | zero => simp at hfuel
    | succ f =>
      have hsb : stableBlock b := hgpref b (List.mem_cons_self b pref2)
      have hbl := blockLines_len_stable hsb
      have hdropNL2 : newLines.drop lineIndex =
          blockLines b ++ (linesOf pref2 ++ textL :: linesOf suf) := by
        rw [hdropNL, linesOf_cons, List.append_assoc]
      obtain ⟨c, hcons, hcty, hclen⟩ :=
        parseBlockLines_stable_cons hsb (linesOf pref2 ++ textL :: linesOf suf)
      rw [hdropNL2, hcons]
      conv_lhs => rw [gnsGo]
      have hlpref : (linesOf (b :: pref2)).length =
          (blockLines b).length + (linesOf pref2).length := by
        rw [linesOf_cons, List.length_append]
      rw [if_neg (by
        rintro ⟨hc1, _⟩
        rw [htb, hlpref, hbl, hclen] at hc1
        omega)]
      have hsome : state[i]? = some b := by
        rw [← List.head?_drop, hdropState, List.cons_append]; rfl
      have hfb : findBlockAt state (lineIndex : Int) = some b := by
        rw [hli, findBlockAt_spans]
        exact hsome
      simp only [hfb]
      rw [if_pos hcty.symm]
      rw [hclen]
      rw [show (lineIndex : Int) + ((jsLen b : Nat) : Int) =
        (((lineIndex + jsLen b : Nat)) : Int) from by push_cast; ring]
      have h1 : newLines.drop (lineIndex + jsLen b) =
          linesOf pref2 ++ textL :: linesOf suf := by
        rw [← List.drop_drop, hdropNL2, ← hbl, List.drop_left]
      have h2 : state.drop (i + 1) = pref2 ++ pb :: suf := by
        rw [← List.drop_drop, hdropState, List.cons_append]
        simp
      have hrec := ih suf f (i + 1) (lineIndex + jsLen b) (acc ++ [b])
        (fun x hx => hgpref x (List.mem_cons_of_mem b hx)) hgsuf
        (by rw [hli, sumSpans_take_succ hsome])
        (by simp only [List.length_cons] at hpos; omega)
        (by rw [htb, hlpref, hbl]; omega)
        h1 h2
        (by simp only [List.length_cons] at hfuel; omega)
      rw [h1] at hrec
      rw [hrec]
      simp

/-- C2: for an edit replacing exactly the block at index `p`
(`from = to = p`) whose new text is a single line that does not open a
code fence and parses as a paragraph, `getNewState` returns the old
sequence with only that block replaced: every block strictly before and
strictly after it is the very object pushed from the old sequence by the
reuse branch (modelled as value equality with the old list's elements).
The flank blocks may span any number of lines: each must merely be stable
under the reconciler's type-only reparse (`stableBlock`), that is, be a
single-line block whose serialized line re-classifies to its own type, or
a closed multi-line fenced code block.  Nothing is assumed about the
edited block itself. -/
theorem C2_paragraph_edit_reuse (state : List SNode) (p : Nat) (text : Str)
    (hp : p < state.length)
    (hpre : ∀ b ∈ state.take p, stableBlock b)
    (hsuf : ∀ b ∈ state.drop (p + 1), stableBlock b)
    (hnl : '\n' ∉ text)
    (hft : fenceOpen text = false)
    (hpara : tryParsers false [text] =
      some (.node "paragraph" (parseInline text) (some 1))) :
    getNewState state p p text =
      state.take p ++
        SNode.node "paragraph" (parseInline text) (some 1) :: state.drop (p + 1) := by
  have hsplit : splitNL text = [text] := splitNL_no_nl text hnl
  have htklen : (state.take p).length = p := List.length_take_of_le (le_of_lt hp)
  have hdropstate : state.drop 0 = state.take p ++ state[p] :: state.drop (p + 1) := by
    rw [List.drop_zero]
    conv_lhs => rw [← List.take_append_drop p state]
    rw [List.drop_eq_getElem_cons hp]
  have hlpre := linesOf_len_stable (state.take p) hpre
  have hlsuf := linesOf_len_stable (state.drop (p + 1)) hsuf
  have hgepre := sumSpans_ge_length (state.take p)
  have hgesuf := sumSpans_ge_length (state.drop (p + 1))
  have happ := gnsGo_prefix_edit state
    (linesOf (state.take p) ++ text :: linesOf (state.drop (p + 1)))
    (linesOf (state.take p)).length text
    (SNode.node "paragraph" (parseInline text) (some 1)) state[p] p
    hft hpara rfl
    (state.take p) (state.drop (p + 1))
    ((linesOf (state.take p) ++ text :: linesOf (state.drop (p + 1))).length + 1)
    0 0 []
    hpre hsuf
    (by simp [sumSpans])
    (by simpa using htklen)
    (by simp)
    (by rw [List.drop_zero])
    hdropstate
    (by
      simp only [List.length_append, List.length_cons]
      omega)
  rw [show ((0 : Nat) : Int) = (0 : Int) from by simp] at happ
  rw [List.drop_zero] at happ
  unfold getNewState
  simp only [hsplit, List.length_singleton, List.append_assoc, List.singleton_append]
  rw [happ]
  simp

/-- Witness for C2: in a document consisting of a three-line fenced code
block and two one-line paragraphs, editing the middle block keeps the
multi-line code block and the trailing paragraph as the old objects and
replaces only the edited block. -/
theorem C2_witness :
    getNewState (parseBlock (str "```\na\n```\nbb\ncc")) 1 1 (str "bZ") =
      (parseBlock (str "```\na\n```\nbb\ncc")).take 1 ++
        SNode.node "paragraph" (parseInline (str "bZ")) (some 1) ::
          (parseBlock (str "```\na\n```\nbb\ncc")).drop 2 :=
  C2_paragraph_edit_reuse (parseBlock (str "```\na\n```\nbb\ncc")) 1 (str "bZ")
    (by decide) (by decide) (by decide) (by decide) (by decide) (by decide)
